import Mathlib

/-!
Shallow embedding of the aliasing/mutation analysis subsystem of
`torch/_functorch/aot_autograd.py` (AOTAutograd), together with theorems
settling the specification claims about it.

Tensor values are modelled by their observable identity facts: a python
object identity (`tid`, standing for `id(x)`), a storage identity
(`storage`, standing for `StorageWeakRef(x.untyped_storage())`), autograd
flags, and the `._base` attribute.  Python dicts are modelled as ordered
association lists where a later binding of the same key overwrites an
earlier one, exactly like CPython insertion-ordered dicts.
-/

namespace AotSpec

/-- Lookup in an insertion-ordered dict: a later insertion of the same key
overwrites an earlier one (CPython dict semantics). -/
def dictLookup (pairs : List (Nat × Nat)) (k : Nat) : Option Nat :=
  match pairs with
  | [] => none
  | p :: rest =>
    match dictLookup rest k with
    | some v => some v
    | none => if p.1 = k then some p.2 else none

/-- The seven values of the `OutputType` enum in `aot_autograd.py`.  The
source's seventh member is the "unsafe view alias" constructor; it is
spelled `uv_alias` here. -/
inductive OutputType
  | non_alias
  | alias_of_input
  | is_input
  | alias_of_intermediate_save_as_output
  | alias_of_intermediate
  | alias_of_intermediate_base_is_user_output
  | uv_alias
deriving DecidableEq, Repr, Inhabited

/-- The `InputAliasInfo` dataclass: per-input mutation flags. -/
structure InputAliasInfo where
  is_leaf : Bool
  mutates_data : Bool
  mutates_metadata : Bool
deriving DecidableEq, Repr, Inhabited

/-- The `OutputAliasInfo` dataclass.  `raw_type_is_tensor` models whether
`raw_type` (the python `type(o)`) is a `torch.Tensor` subclass, which is the
only fact about `raw_type` the source ever consumes
(`issubclass(info.raw_type, torch.Tensor)`). -/
structure OutputAliasInfo where
  output_type : OutputType
  raw_type_is_tensor : Bool
  base_idx : Option Nat
deriving DecidableEq, Repr, Inhabited

/-- The `ViewAndMutationMeta` dataclass, parametrised by the type used to
model the sample values stored in `traced_tangents`. -/
structure ViewAndMutationMeta (α : Type) where
  input_info : List InputAliasInfo
  output_info : List OutputAliasInfo
  requires_grad_info : List Bool
  num_intermediate_bases : Nat
  keep_input_mutations : Bool
  traced_tangents : List α
deriving DecidableEq, Repr

/-- Identity facts about the `._base` attribute of an output tensor. -/
structure TensorBase where
  tid : Nat
  requires_grad : Bool
deriving DecidableEq, Repr, Inhabited

/-- One output value of the analyzed function, as observed by
`run_functionalized_fw_and_collect_metadata`: its python identity, storage
identity, autograd flag and `._base` attribute.  Non-tensor outputs
(`is_tensor = false`) still carry a `tid` because python gives every object
an `id()`, which the source stores in `out_tensor_ids`. -/
structure FOut where
  is_tensor : Bool
  tid : Nat
  storage : Nat
  requires_grad : Bool
  base : Option TensorBase
deriving DecidableEq, Repr, Inhabited

/-- What the functionalization interpreter reports about one input after
running the function: either the observed final value is the very same
object (`unchanged`, i.e. `arg is new_arg`), or it differs, in which case
the source compares storage identity and tensor metadata. -/
inductive MutObs
  | unchanged
  | changed (same_storage : Bool) (same_metadata : Bool)
deriving DecidableEq, Repr, Inhabited

/-- One input of the analyzed function.  `tid`/`storage`/`requires_grad`
describe the functionalized wrapper `f_arg` (the object used for the alias
dictionaries), `is_leaf` describes the original `arg`, and `obs` records
the mutation observation made after running the function. -/
structure FArg where
  is_tensor : Bool
  tid : Nat
  storage : Nat
  is_leaf : Bool
  requires_grad : Bool
  obs : MutObs
deriving DecidableEq, Repr, Inhabited

/-- Whether `arg is not new_arg` held for this input (only possible for
tensor inputs: the source passes non-tensors through unchanged). -/
def argChanged (a : FArg) : Bool :=
  a.is_tensor &&
    (match a.obs with
     | .unchanged => false
     | .changed _ _ => true)

/-- The per-input branch of the metadata collection loop: classify the
mutation as data and/or metadata mutation and build `InputAliasInfo`. -/
def collectInputInfo (a : FArg) : InputAliasInfo :=
  if a.is_tensor then
    match a.obs with
    | .unchanged => ⟨a.is_leaf, false, false⟩
    | .changed same_storage same_metadata =>
      if same_storage then ⟨a.is_leaf, false, true⟩
      else ⟨a.is_leaf, true, !same_metadata⟩
  else ⟨false, false, false⟩

/-- The `input_requires_grad_info` list: `requires_grad` of the functional
wrapper, appended only for inputs whose observed final value differed. -/
def inputRequiresGradInfo (args : List FArg) : List Bool :=
  (args.filter argChanged).map fun a => a.is_tensor && a.requires_grad

/-- The `inp_storage_refs` dict: storage identity of every tensor input
mapped to its position (later positions overwrite earlier ones, as in the
source's dict comprehension). -/
def inpStorageRefsGo (i : Nat) : List FArg → List (Nat × Nat)
  | [] => []
  | a :: rest =>
    (if a.is_tensor then [(a.storage, i)] else []) ++ inpStorageRefsGo (i + 1) rest

/-- Entry point for `inp_storage_refs`. -/
def inpStorageRefs (args : List FArg) : List (Nat × Nat) :=
  inpStorageRefsGo 0 args

/-- The `inp_tensor_ids` set: python ids of the tensor inputs. -/
def inpTensorIds (args : List FArg) : List Nat :=
  (args.filter (·.is_tensor)).map (·.tid)

/-- The `out_tensor_ids` dict: python id of every output (tensors and
non-tensors alike) mapped to its position. -/
def outTensorIdsGo (i : Nat) : List FOut → List (Nat × Nat)
  | [] => []
  | o :: rest => (o.tid, i) :: outTensorIdsGo (i + 1) rest

/-- Entry point for `out_tensor_ids`. -/
def outTensorIds (outs : List FOut) : List (Nat × Nat) :=
  outTensorIdsGo 0 outs

/-- The `out_tensor_alias_counts` defaultdict: how many tensor outputs
reference a given storage. -/
def outAliasCount (outs : List FOut) (s : Nat) : Nat :=
  (outs.filter fun o => o.is_tensor && o.storage == s).length

/-- The mutable state of the output-classification loop:
`intermediate_base_tensor_id_to_output_idx`, `intermediate_bases` and the
accumulated `output_info`. -/
structure ClassifierState where
  ib_map : List (Nat × Nat)
  intermediate_bases : List TensorBase
  output_info : List OutputAliasInfo
deriving DecidableEq, Repr

/-- One iteration of the output-classification loop of
`run_functionalized_fw_and_collect_metadata` (source lines 752-825). -/
def classifyStep (args : List FArg) (outs : List FOut)
    (s : ClassifierState) (o : FOut) : ClassifierState :=
  if o.is_tensor then
    match dictLookup (inpStorageRefs args) o.storage with
    | some inpIdx =>
      let ot := if (inpTensorIds args).contains o.tid then
          OutputType.is_input
        else
          OutputType.alias_of_input
      { s with output_info := s.output_info ++ [⟨ot, o.is_tensor, some inpIdx⟩] }
    | none =>
      match o.base with
      | some b =>
        if o.requires_grad && b.requires_grad then
          if outAliasCount outs o.storage == 1 then
            { s with output_info :=
                s.output_info ++ [⟨OutputType.uv_alias, o.is_tensor, none⟩] }
          else
            match dictLookup (outTensorIds outs) b.tid with
            | some existingOutIdx =>
              { s with output_info := s.output_info ++
                  [⟨OutputType.alias_of_intermediate_base_is_user_output,
                    o.is_tensor, some existingOutIdx⟩] }
            | none =>
              match dictLookup s.ib_map b.tid with
              | some existingBaseIdx =>
                { s with output_info := s.output_info ++
                    [⟨OutputType.alias_of_intermediate, o.is_tensor,
                      some existingBaseIdx⟩] }
              | none =>
                { ib_map := s.ib_map ++ [(b.tid, s.intermediate_bases.length)]
                  intermediate_bases := s.intermediate_bases ++ [b]
                  output_info := s.output_info ++
                    [⟨OutputType.alias_of_intermediate_save_as_output,
                      o.is_tensor, some s.intermediate_bases.length⟩] }
        else
          { s with output_info :=
              s.output_info ++ [⟨OutputType.non_alias, o.is_tensor, none⟩] }
      | none =>
        { s with output_info :=
            s.output_info ++ [⟨OutputType.non_alias, o.is_tensor, none⟩] }
  else
    { s with output_info :=
        s.output_info ++ [⟨OutputType.non_alias, o.is_tensor, none⟩] }

/-- The whole output-classification loop. -/
def collectOutputInfo (args : List FArg) (outs : List FOut) : ClassifierState :=
  outs.foldl (classifyStep args outs) ⟨[], [], []⟩

/-- The `output_requires_grad_info` list. -/
def outputRequiresGradInfo (outs : List FOut) : List Bool :=
  outs.map fun o => o.is_tensor && o.requires_grad

/-- The `f_input_tangents` list (values modelled by python id): inputs whose
`InputAliasInfo` has `mutates_data` set. -/
def fInputTangents (args : List FArg) : List Nat :=
  (args.filter fun a => (collectInputInfo a).mutates_data).map (·.tid)

/-- The `f_output_tangents` list: outputs classified `non_alias` or
unsafe-view-alias whose raw type is a tensor. -/
def fOutputTangents (args : List FArg) (outs : List FOut) : List Nat :=
  ((outs.zip (collectOutputInfo args outs).output_info).filter fun p =>
      (p.2.output_type == OutputType.non_alias
        || p.2.output_type == OutputType.uv_alias)
      && p.2.raw_type_is_tensor).map
    fun p => p.1.tid

/-- The full result of `run_functionalized_fw_and_collect_metadata`, with
traced tangent values modelled by python ids. -/
def runCollectMetadata (keep_input_mutations : Bool)
    (args : List FArg) (outs : List FOut) : ViewAndMutationMeta Nat :=
  let st := collectOutputInfo args outs
  { input_info := args.map collectInputInfo
    output_info := st.output_info
    requires_grad_info := inputRequiresGradInfo args ++ outputRequiresGradInfo outs
    num_intermediate_bases := st.intermediate_bases.length
    keep_input_mutations := keep_input_mutations
    traced_tangents :=
      fInputTangents args ++ fOutputTangents args outs
        ++ st.intermediate_bases.map (·.tid) }

/-! ### Claim-side (specification) renderings of the analyzer claims -/

/-- Index of the first tensor input whose storage identity is `s`
(the natural reading of the claim's "o's storage matches some input's
storage"; the source's dict keeps the last such index instead). -/
def specFindInput (args : List FArg) (s : Nat) : Option Nat :=
  match args with
  | [] => none
  | a :: rest =>
    if a.is_tensor && a.storage == s then some 0
    else (specFindInput rest s).map (· + 1)

/-- Index of the last output whose python id is `t` (when the same object
is returned several times, the source's `out_tensor_ids` dict keeps the
last position; the claim does not pin this down, so we follow the source). -/
def lastOutIdxOf (outs : List FOut) (t : Nat) : Option Nat :=
  match outs with
  | [] => none
  | o :: rest =>
    match lastOutIdxOf rest t with
    | some j => some (j + 1)
    | none => if o.tid = t then some 0 else none

/-- Slot of an already-seen intermediate base with python id `t` in the
base list (first occurrence; the spec-side list never holds duplicates). -/
def firstBaseIdxOf (bases : List TensorBase) (t : Nat) : Option Nat :=
  match bases with
  | [] => none
  | b :: rest =>
    if b.tid = t then some 0 else (firstBaseIdxOf rest t).map (· + 1)

/-- State of the claim-side classification: the intermediate bases seen so
far and the accumulated classifications. -/
structure SpecClassifierState where
  seen_bases : List TensorBase
  output_info : List OutputAliasInfo
deriving DecidableEq, Repr

/-- Classification of one output following the words of claim C2, with the
one amendment its counterexample forces: in the intermediate-alias case the
base is resolved against all user outputs, not only already-seen ones.
Three ordered checks: (1) storage matches an input's storage — `is_input`
when the output is the same tensor instance as that input, else
`alias_of_input`; (2) else a non-null view base with both sides requiring
gradients — unsafe view alias when the output's storage is referenced by
exactly one output, else resolve the base against the user outputs, the
already-seen intermediate bases, or a newly allocated intermediate-base
slot; (3) else `non_alias`. -/
def specClassifyStep (args : List FArg) (outs : List FOut)
    (s : SpecClassifierState) (o : FOut) : SpecClassifierState :=
  if o.is_tensor then
    match specFindInput args o.storage with
    | some inpIdx =>
      let ot := if o.tid == (args.getD inpIdx default).tid then
          OutputType.is_input
        else
          OutputType.alias_of_input
      { s with output_info := s.output_info ++ [⟨ot, o.is_tensor, some inpIdx⟩] }
    | none =>
      match o.base with
      | some b =>
        if o.requires_grad && b.requires_grad then
          if outAliasCount outs o.storage == 1 then
            { s with output_info :=
                s.output_info ++ [⟨OutputType.uv_alias, o.is_tensor, none⟩] }
          else
            match lastOutIdxOf outs b.tid with
            | some existingOutIdx =>
              { s with output_info := s.output_info ++
                  [⟨OutputType.alias_of_intermediate_base_is_user_output,
                    o.is_tensor, some existingOutIdx⟩] }
            | none =>
              match firstBaseIdxOf s.seen_bases b.tid with
              | some existingBaseIdx =>
                { s with output_info := s.output_info ++
                    [⟨OutputType.alias_of_intermediate, o.is_tensor,
                      some existingBaseIdx⟩] }
              | none =>
                { seen_bases := s.seen_bases ++ [b]
                  output_info := s.output_info ++
                    [⟨OutputType.alias_of_intermediate_save_as_output,
                      o.is_tensor, some s.seen_bases.length⟩] }
        else
          { s with output_info :=
              s.output_info ++ [⟨OutputType.non_alias, o.is_tensor, none⟩] }
      | none =>
        { s with output_info :=
            s.output_info ++ [⟨OutputType.non_alias, o.is_tensor, none⟩] }
  else
    { s with output_info :=
        s.output_info ++ [⟨OutputType.non_alias, o.is_tensor, none⟩] }

/-- Claim-side classification of all outputs (amended form of C2). -/
def specClassifyOutputs (args : List FArg) (outs : List FOut) :
    SpecClassifierState :=
  outs.foldl (specClassifyStep args outs) ⟨[], []⟩

/-- Classification of one output following claim C2 exactly as stated: the
base of an intermediate alias is resolved against the *already-seen* user
outputs only (the outputs strictly before the current position). -/
def specClassifyOrigStep (args : List FArg) (outs : List FOut)
    (sp : SpecClassifierState × Nat) (o : FOut) : SpecClassifierState × Nat :=
  let s := sp.1
  let pos := sp.2
  let s' :=
    if o.is_tensor then
      match specFindInput args o.storage with
      | some inpIdx =>
        let ot := if o.tid == (args.getD inpIdx default).tid then
            OutputType.is_input
          else
            OutputType.alias_of_input
        { s with output_info := s.output_info ++ [⟨ot, o.is_tensor, some inpIdx⟩] }
      | none =>
        match o.base with
        | some b =>
          if o.requires_grad && b.requires_grad then
            if outAliasCount outs o.storage == 1 then
              { s with output_info :=
                  s.output_info ++ [⟨OutputType.uv_alias, o.is_tensor, none⟩] }
            else
              match lastOutIdxOf (outs.take pos) b.tid with
              | some existingOutIdx =>
                { s with output_info := s.output_info ++
                    [⟨OutputType.alias_of_intermediate_base_is_user_output,
                      o.is_tensor, some existingOutIdx⟩] }
              | none =>
                match firstBaseIdxOf s.seen_bases b.tid with
                | some existingBaseIdx =>
                  { s with output_info := s.output_info ++
                      [⟨OutputType.alias_of_intermediate, o.is_tensor,
                        some existingBaseIdx⟩] }
                | none =>
                  { seen_bases := s.seen_bases ++ [b]
                    output_info := s.output_info ++
                      [⟨OutputType.alias_of_intermediate_save_as_output,
                        o.is_tensor, some s.seen_bases.length⟩] }
          else
            { s with output_info :=
                s.output_info ++ [⟨OutputType.non_alias, o.is_tensor, none⟩] }
        | none =>
          { s with output_info :=
              s.output_info ++ [⟨OutputType.non_alias, o.is_tensor, none⟩] }
    else
      { s with output_info :=
          s.output_info ++ [⟨OutputType.non_alias, o.is_tensor, none⟩] }
  (s', pos + 1)

/-- Claim-side classification of all outputs, claim C2 exactly as stated. -/
def specClassifyOrigOutputs (args : List FArg) (outs : List FOut) :
    SpecClassifierState :=
  (outs.foldl (specClassifyOrigStep args outs) (⟨[], []⟩, 0)).1

/-- The `intermediate_base_tensor_id_to_output_idx` dict that corresponds
to a given intermediate-base list: each base's python id mapped to its
slot. -/
def ibMapOfGo (i : Nat) : List TensorBase → List (Nat × Nat)
  | [] => []
  | b :: rest => (b.tid, i) :: ibMapOfGo (i + 1) rest

/-- Entry point for the reconstruction of the intermediate-base dict. -/
def ibMapOf (bases : List TensorBase) : List (Nat × Nat) :=
  ibMapOfGo 0 bases

/-- Well-formedness of an analyzer problem instance as a model of python
objects: distinct tensor inputs own distinct storages, and an input and an
output with the same python id are the same object, hence share a storage
identity.  The first clause scopes claim C2's "that input" to the
unambiguous case; the second is inherent to modelling `id()`. -/
def AnalyzerWF (args : List FArg) (outs : List FOut) : Prop :=
  ((args.filter (·.is_tensor)).map (·.storage)).Nodup ∧
    ∀ a ∈ args, a.is_tensor = true → ∀ o ∈ outs, o.is_tensor = true →
      a.tid = o.tid → a.storage = o.storage

instance (args : List FArg) (outs : List FOut) : Decidable (AnalyzerWF args outs) := by
  unfold AnalyzerWF
  infer_instance

/-- Tangent list as claim C3 states it: inputs that are both mutated and
gradient-tracked (metadata-only mutations excluded), then tensor-typed
outputs classified non-aliasing or unsafe-view-aliasing, then the
intermediate bases. -/
def claimC3Tangents (args : List FArg) (outs : List FOut) : List Nat :=
  ((args.filter fun a =>
      (collectInputInfo a).mutates_data && a.requires_grad).map (·.tid))
    ++ fOutputTangents args outs
    ++ (collectOutputInfo args outs).intermediate_bases.map (·.tid)

/-- Tangent list as claim C3 must be amended: the data-mutated inputs enter
regardless of gradient tracking. -/
def amendedC3Tangents (args : List FArg) (outs : List FOut) : List Nat :=
  ((args.filter fun a => (collectInputInfo a).mutates_data).map (·.tid))
    ++ fOutputTangents args outs
    ++ (collectOutputInfo args outs).intermediate_bases.map (·.tid)

/-! ### Synthetic-base merging (`merge_view_inputs`) -/

/-- Identity and dtype facts about the `._base` of an input view. -/
structure MBase where
  tid : Nat
  dtype : Nat
deriving DecidableEq, Repr, Inhabited

/-- One argument to `merge_view_inputs`: python identity, storage identity,
dtype and the `._base` attribute.  The embedding refers to arguments by
position; this is faithful because the deduplication wrapper runs first, so
no object occurs twice (source comment before `aot_wrapper_synthetic_base`). -/
structure MArg where
  is_tensor : Bool
  tid : Nat
  storage : Nat
  dtype : Nat
  base : Option MBase
deriving DecidableEq, Repr, Inhabited

/-- The source's `are_differentiable_views`. -/
def are_differentiable_views (view1 view2 : MArg) : Bool :=
  if view1.tid == view2.tid then true
  else
    match view1.base, view2.base with
    | none, none => false
    | b1, b2 =>
      (match b1, b2 with
       | some x, some y => x.tid == y.tid
       | _, _ => false)
      || (match b1 with
          | some x => x.tid == view2.tid
          | none => false)
      || (match b2 with
          | some y => y.tid == view1.tid
          | none => false)

/-- The source's `same_dtype_views`. -/
def same_dtype_views (view1 view2 : MArg) : Bool :=
  if view1.dtype != view2.dtype then false
  else if (match view1.base with
           | some b => view1.dtype != b.dtype
           | none => false) then false
  else if (match view2.base with
           | some b => view2.dtype != b.dtype
           | none => false) then false
  else true

/-- A value in the merged argument list: an original argument (by position),
a freshly synthesized zero-size tensor over a storage, or an existing common
differentiable base. -/
inductive MergedArg
  | orig (i : Nat)
  | fresh (storage : Nat)
  | base (b : MBase)
deriving DecidableEq, Repr, Inhabited

/-- A value of the source's `inner_calling_convention_meta`: the inner
argument is either the outer argument at `inner_idx`, or a view (witnessed
by the outer view argument at `view_idx`) of merged base `base_idx`. -/
inductive SyntheticBaseEntry
  | direct (inner_idx : Nat)
  | viewOf (base_idx : Nat) (view_idx : Nat)
deriving DecidableEq, Repr, Inhabited

/-- Insertion into the `storage_ref_to_idx` ordered defaultdict: append the
index to an existing storage's group, or open a new group at the end. -/
def addToGroups (gs : List (Nat × List Nat)) (s : Nat) (i : Nat) :
    List (Nat × List Nat) :=
  match gs with
  | [] => [(s, [i])]
  | (s', l) :: rest =>
    if s' == s then (s', l ++ [i]) :: rest else (s', l) :: addToGroups rest s i

/-- The first loop of `merge_view_inputs`: build the storage groups (in
first-occurrence order) and the initial `other_args` (the non-tensor
arguments, in original order). -/
def storageGroupsGo (gs : List (Nat × List Nat)) (others : List Nat)
    (i : Nat) : List MArg → List (Nat × List Nat) × List Nat
  | [] => (gs, others)
  | a :: rest =>
    if a.is_tensor then
      storageGroupsGo (addToGroups gs a.storage i) others (i + 1) rest
    else
      storageGroupsGo gs (others ++ [i]) (i + 1) rest

/-- The consecutive-pair asserts on an aliased group (differentiable-views
check, skipped under inference, and the same-dtype check). -/
def checkGroupPairs (fwd_inputs : List MArg) (is_inference : Bool) :
    List (Nat × Nat) → Bool
  | [] => true
  | (i1, i2) :: rest =>
    let v1 := fwd_inputs.getD i1 default
    let v2 := fwd_inputs.getD i2 default
    ((is_inference || are_differentiable_views v1 v2)
        && same_dtype_views v1 v2)
      && checkGroupPairs fwd_inputs is_inference rest

/-- Synthetic-base selection for one aliased group: a fresh storage-backed
tensor when no member has a `._base`; otherwise the common base, provided
every member's base (and every base-less member itself) is that very
object. -/
def chooseSyntheticBase (fwd_inputs : List MArg) (idxs : List Nat) :
    Option MergedArg :=
  let non_none_bases := idxs.filterMap fun i => (fwd_inputs.getD i default).base
  let aliases_with_none_bases :=
    (idxs.map fun i => fwd_inputs.getD i default).filter fun a => a.base == none
  match non_none_bases with
  | [] => some (MergedArg.fresh ((fwd_inputs.getD (idxs.headD 0) default).storage))
  | b0 :: others =>
    if others.all (fun b => b.tid == b0.tid)
        && aliases_with_none_bases.all (fun a => a.tid == b0.tid) then
      some (MergedArg.base b0)
    else none

/-- State threaded through the per-group loop of `merge_view_inputs`. -/
structure MergeState where
  base_args : List MergedArg
  other_args : List Nat
  meta : List (Nat × SyntheticBaseEntry)
deriving DecidableEq, Repr

/-- One iteration of the per-group loop: groups with at most one member or
without any data-mutated member pass their members to `other_args`; other
groups run the pair asserts, allocate a synthetic base and record one
view-reconstruction entry per member. -/
def mergeGroupStep (fwd_inputs : List MArg)
    (mutated_input_info : List InputAliasInfo) (is_inference : Bool)
    (st : MergeState) (g : Nat × List Nat) : Option MergeState :=
  let idxs := g.2
  if idxs.length ≤ 1
      || !(idxs.any fun i => (mutated_input_info.getD i default).mutates_data) then
    some { st with other_args := st.other_args ++ idxs }
  else
    if !checkGroupPairs fwd_inputs is_inference (idxs.zip idxs.tail) then none
    else
      match chooseSyntheticBase fwd_inputs idxs with
      | none => none
      | some sb =>
        some { base_args := st.base_args ++ [sb]
               other_args := st.other_args
               meta := st.meta ++ idxs.map fun i =>
                 (i, SyntheticBaseEntry.viewOf st.base_args.length i) }

/-- The whole per-group loop. -/
def mergeGroups (fwd_inputs : List MArg)
    (mutated_input_info : List InputAliasInfo) (is_inference : Bool) :
    List (Nat × List Nat) → MergeState → Option MergeState
  | [], st => some st
  | g :: rest, st =>
    match mergeGroupStep fwd_inputs mutated_input_info is_inference st g with
    | none => none
    | some st' => mergeGroups fwd_inputs mutated_input_info is_inference rest st'

/-- Lookup in `inner_calling_convention_meta`. -/
def lookupEntry (meta : List (Nat × SyntheticBaseEntry)) (k : Nat) :
    Option SyntheticBaseEntry :=
  (meta.find? fun p => p.1 == k).map (·.2)

/-- The post-processing of `inner_calling_convention_meta` into a list: an
array with one slot per dict entry, filled by key, with the source's
assert that every slot was filled. -/
def postProcessMeta (meta : List (Nat × SyntheticBaseEntry)) :
    Option (List SyntheticBaseEntry) :=
  let l := (List.range meta.length).map fun k => lookupEntry meta k
  if l.all (·.isSome) then
    some (l.map fun x => x.getD (SyntheticBaseEntry.direct 0))
  else none

/-- The source's `merge_view_inputs`: `none` models a raised assertion;
a `some (merged, none)` result is the happy path without synthetic bases;
`some (merged, some m)` carries the synthetic-base metadata. -/
def merge_view_inputs (fwd_inputs : List MArg)
    (mutated_input_info : List InputAliasInfo) (is_inference : Bool) :
    Option (List MergedArg × Option (List SyntheticBaseEntry)) :=
  if fwd_inputs.length ≠ mutated_input_info.length then none
  else
    let gs := storageGroupsGo [] [] 0 fwd_inputs
    match mergeGroups fwd_inputs mutated_input_info is_inference gs.1
        ⟨[], gs.2, []⟩ with
    | none => none
    | some st =>
      if st.base_args.isEmpty then
        if st.other_args.length ≠ fwd_inputs.length then none
        else some ((List.range fwd_inputs.length).map MergedArg.orig, none)
      else
        let fullMeta := st.meta ++ st.other_args.enum.map fun p =>
          (p.2, SyntheticBaseEntry.direct (st.base_args.length + p.1))
        match postProcessMeta fullMeta with
        | none => none
        | some m =>
          some (st.base_args ++ st.other_args.map MergedArg.orig, some m)

/-- Indices of the tensor arguments whose storage is `s`, in original
order, starting from position `i` (the claim-side notion of `s`'s group). -/
def tensorIdxsFrom (s : Nat) (i : Nat) : List MArg → List Nat
  | [] => []
  | a :: rest =>
    (if a.is_tensor && a.storage == s then [i] else [])
      ++ tensorIdxsFrom s (i + 1) rest

/-- Indices of the non-tensor arguments, in original order, starting from
position `i`. -/
def nonTensorIdxsFrom (i : Nat) : List MArg → List Nat
  | [] => []
  | a :: rest =>
    (if a.is_tensor then [] else [i]) ++ nonTensorIdxsFrom (i + 1) rest

/-- The tensor storages in first-occurrence order, skipping those in
`seen`. -/
def newStoragesFrom (seen : List Nat) : List MArg → List Nat
  | [] => []
  | a :: rest =>
    if a.is_tensor && !seen.contains a.storage then
      a.storage :: newStoragesFrom (seen ++ [a.storage]) rest
    else
      newStoragesFrom seen rest

/-- Whether the storage-`s` group gets a synthetic base: more than one
member and at least one data-mutated member. -/
def groupNeedsBase (fwd_inputs : List MArg)
    (mutated_input_info : List InputAliasInfo) (s : Nat) : Bool :=
  let idxs := tensorIdxsFrom s 0 fwd_inputs
  decide (1 < idxs.length)
    && idxs.any fun i => (mutated_input_info.getD i default).mutates_data

/-- The storages of the groups that get synthetic bases, ordered by the
first occurrence of each group's earliest member. -/
def basedStorages (fwd_inputs : List MArg)
    (mutated_input_info : List InputAliasInfo) : List Nat :=
  (newStoragesFrom [] fwd_inputs).filter (groupNeedsBase fwd_inputs mutated_input_info)

/-- The non-grouped argument order claim C5 must be amended to: the
non-tensor arguments first (in original order), then the tensor arguments
of the groups that got no synthetic base, grouped by storage with groups in
first-occurrence order and members in original order. -/
def amendedC5Others (fwd_inputs : List MArg)
    (mutated_input_info : List InputAliasInfo) : List Nat :=
  nonTensorIdxsFrom 0 fwd_inputs
    ++ ((newStoragesFrom [] fwd_inputs).filter
          fun s => !groupNeedsBase fwd_inputs mutated_input_info s).flatMap
        fun s => tensorIdxsFrom s 0 fwd_inputs

/-- The non-grouped argument order claim C5 states: every argument not
absorbed into a synthetic base, in original argument order. -/
def claimC5OrigOthers (fwd_inputs : List MArg)
    (mutated_input_info : List InputAliasInfo) : List Nat :=
  (List.range fwd_inputs.length).filter fun i =>
    let a := fwd_inputs.getD i default
    !(a.is_tensor && groupNeedsBase fwd_inputs mutated_input_info a.storage)

/-! ### Synthetic-base metadata (`create_synthetic_base_metadata`) -/

/-- The base/inner index stored in a `synthetic_base_info` entry (for a
view entry, the merged-base index `[0]` of the source's tuple). -/
def sbEntryBaseIdx : SyntheticBaseEntry → Nat
  | .direct j => j
  | .viewOf j _ => j

/-- Whether a `synthetic_base_info` entry is a view of a merged base (the
source's `not isinstance(synthetic_base_info[outer_idx], int)`). -/
def sbEntryIsView : SyntheticBaseEntry → Bool
  | .direct _ => false
  | .viewOf _ _ => true

/-- The outer argument indices that map to inner position `inner_idx`
(the source's `outer_aliased_indices_of_current_base_arg`). -/
def outerIndicesOf (synthetic_base_info : List SyntheticBaseEntry)
    (inner_idx : Nat) : List Nat :=
  (List.range synthetic_base_info.length).filter fun outer_idx =>
    sbEntryBaseIdx (synthetic_base_info.getD outer_idx (.direct 0)) == inner_idx

/-- The `InputAliasInfo` record built for one inner position: a merged
base (more than one outer index) gets `mutates_data = true` and
`mutates_metadata = false`; a directly-mapped input keeps its flags. -/
def csbRecord (m : ViewAndMutationMeta Nat)
    (synthetic_base_info : List SyntheticBaseEntry) (inner_idx : Nat) :
    InputAliasInfo :=
  let outer_indices := outerIndicesOf synthetic_base_info inner_idx
  { mutates_data :=
      if 1 < outer_indices.length then true
      else (m.input_info.getD (outer_indices.headD 0) default).mutates_data
    mutates_metadata :=
      if 1 < outer_indices.length then false
      else (m.input_info.getD (outer_indices.headD 0) default).mutates_metadata
    is_leaf := outer_indices.any fun x => (m.input_info.getD x default).is_leaf }

/-- The loop over inner positions of `create_synthetic_base_metadata`:
the leaf-ness all-or-nothing assert, the per-position `InputAliasInfo`,
and the requires-grad entries for mutated positions. -/
def csbGo (m : ViewAndMutationMeta Nat)
    (synthetic_base_info : List SyntheticBaseEntry) :
    List Nat → Option (List InputAliasInfo × List Bool)
  | [] => some ([], [])
  | inner_idx :: rest =>
    let outer_indices := outerIndicesOf synthetic_base_info inner_idx
    let any_leaf := outer_indices.any fun x => (m.input_info.getD x default).is_leaf
    let all_leaf := outer_indices.all fun x => (m.input_info.getD x default).is_leaf
    if any_leaf ≠ all_leaf then none
    else
      let inpt_info := csbRecord m synthetic_base_info inner_idx
      match csbGo m synthetic_base_info rest with
      | none => none
      | some (infos, rg) =>
        some (inpt_info :: infos,
          (if inpt_info.mutates_data || inpt_info.mutates_metadata then
            [outer_indices.any fun x => m.requires_grad_info.getD x false]
          else []) ++ rg)

/-- The outer indices that are part of a synthetic base and had a
metadata mutation (the source's
`outer_aliased_arg_idx_with_metadata_mutations`). -/
def outerAliasedMetadataMutatedIndices (m : ViewAndMutationMeta Nat)
    (synthetic_base_info : List SyntheticBaseEntry) : List Nat :=
  (List.range m.input_info.length).filter fun outer_idx =>
    (m.input_info.getD outer_idx default).mutates_metadata
      && sbEntryIsView (synthetic_base_info.getD outer_idx (.direct 0))

/-- The remapping of one pre-merge `OutputAliasInfo` through
`synthetic_base_info` (the source's `existing_output_infos` entry). -/
def remapOutputInfo (synthetic_base_info : List SyntheticBaseEntry)
    (o : OutputAliasInfo) : OutputAliasInfo :=
  { output_type := o.output_type
    raw_type_is_tensor := o.raw_type_is_tensor
    base_idx :=
      match o.base_idx with
      | none => none
      | some b => some (sbEntryBaseIdx (synthetic_base_info.getD b (.direct 0))) }

/-- The source's `create_synthetic_base_metadata`.  `outer_args` is
modelled by its `requires_grad` flags and `inner_args` by abstract values;
`none` models a raised assertion. -/
def create_synthetic_base_metadata (m : ViewAndMutationMeta Nat)
    (synthetic_base_info : List SyntheticBaseEntry)
    (outer_args_requires_grad : List Bool) (inner_args : List Nat) :
    Option (ViewAndMutationMeta Nat × List Nat) :=
  match csbGo m synthetic_base_info (List.range inner_args.length) with
  | none => none
  | some (input_infos, mutated_inp_require_grad_info) =>
    let outer_aliased := outerAliasedMetadataMutatedIndices m synthetic_base_info
    let num_original_input_data_mutations :=
      (m.input_info.filter fun x => x.mutates_data || x.mutates_metadata).length
    let output_grad_info := m.requires_grad_info.drop num_original_input_data_mutations
    let input_metadata_mutation_grad_info :=
      outer_aliased.map fun outer_idx =>
        outer_args_requires_grad.getD outer_idx false
    let input_metadata_output_info :=
      outer_aliased.map fun outer_idx =>
        OutputAliasInfo.mk OutputType.alias_of_input true
          (some (sbEntryBaseIdx (synthetic_base_info.getD outer_idx (.direct 0))))
    let existing_output_infos := m.output_info.map (remapOutputInfo synthetic_base_info)
    let num_outer_mutated_data_inps := (m.input_info.filter (·.mutates_data)).length
    let inner_mutated_data_inps :=
      ((inner_args.zip input_infos).filter fun p => p.2.mutates_data).map (·.1)
    some
      ({ input_info := input_infos
         output_info := existing_output_infos ++ input_metadata_output_info
         requires_grad_info := mutated_inp_require_grad_info ++ output_grad_info
           ++ input_metadata_mutation_grad_info
         num_intermediate_bases := m.num_intermediate_bases
         keep_input_mutations := m.keep_input_mutations
         traced_tangents := inner_mutated_data_inps
           ++ m.traced_tangents.drop num_outer_mutated_data_inps },
       outer_aliased)

/-! ### Argument deduplication (`aot_wrapper_dedupe`, strategy 2) -/

/-- The construction loop of `seen_args`, `keep_arg_mask` and
`add_dupe_map`, processing the arguments in order.  Arguments are modelled
by python identity keys (tensors hash by identity).  The result is
`(keep_arg_mask, add_dupe_map, unique_args)`, with `add_dupe_map` as a
plain list because its keys are exactly `0..len-1` in order. -/
def buildDedupGo (seen : List (Nat × Nat)) (j : Nat) :
    List Nat → List Bool × List Nat × Nat
  | [] => ([], [], j)
  | t :: rest =>
    match dictLookup seen t with
    | some k =>
      let r := buildDedupGo seen j rest
      (false :: r.1, k :: r.2.1, r.2.2)
    | none =>
      let r := buildDedupGo (seen ++ [(t, j)]) (j + 1) rest
      (true :: r.1, j :: r.2.1, r.2.2)

/-- Entry point of the dedup-map construction. -/
def buildDedup (flat_args : List Nat) : List Bool × List Nat × Nat :=
  buildDedupGo [] 0 flat_args

/-- The source's `remove_dupe_args`: keep the arguments whose
`keep_arg_mask` entry is true (a zip, truncating like python's). -/
def remove_dupe_args (keep_arg_mask : List Bool) (args : List Nat) :
    List Nat :=
  ((args.zip keep_arg_mask).filter (·.2)).map (·.1)

/-- The source's `add_dupe_args`: re-expand a deduplicated list through
`add_dupe_map`. -/
def add_dupe_args (add_dupe_map : List Nat) (args : List Nat) : List Nat :=
  add_dupe_map.map fun k => args.getD k 0

/-! ### Runtime epilogue (`create_runtime_wrapper`) -/

/-- Size, stride and storage offset of a tensor, as consumed by the
`resize_` and `as_strided_` calls of the runtime wrapper epilogue. -/
structure TensorMeta where
  size : List Nat
  stride : List Nat
  storage_offset : Nat
deriving DecidableEq, Repr, Inhabited

/-- One in-place operation the runtime wrapper epilogue applies to the
caller's original argument. -/
inductive MutStep
  | resize (size : List Nat)
  | restride (m : TensorMeta)
  | copyFrom (updated : Nat)
  | copyFromDetached (updated : Nat)
deriving DecidableEq, Repr, Inhabited

/-- Runtime facts about one mutated input position: the caller's original
argument (`original_inpt`) and the compiled forward's corresponding output
(`updated_inpt`).  `upd_is_tensor_alias` models
`isinstance(updated_inpt, TensorAlias)`, `upd_meta` the
size/stride/storage-offset of the updated value (after the `TensorAlias`
unwrap in the branch that performs one), and `upd_value` is an identity
key for the updated value, used as the copy source. -/
structure RuntimeMutInput where
  orig_requires_grad : Bool
  orig_storage_size : Nat
  upd_storage_size : Nat
  upd_is_tensor_alias : Bool
  upd_meta : TensorMeta
  upd_value : Nat
deriving DecidableEq, Repr, Inhabited

/-- The per-mutated-input body of the runtime wrapper epilogue (source
lines 2150-2201), as the ordered list of in-place steps applied to
`original_inpt`.  An unmutated entry is skipped (`continue`, line 2151);
`none` models a raised assertion (the `TensorAlias` assert of line 2168;
the `assert meta.mutates_data` of line 2185 is unreachable under the
outer guard). -/
def applyInputMutation (trace_joint : Bool) (info : InputAliasInfo)
    (r : RuntimeMutInput) : Option (List MutStep) :=
  if !info.mutates_data && !info.mutates_metadata then some []
  else
    let resizeSteps : List MutStep :=
      if !trace_joint && r.orig_storage_size != r.upd_storage_size then
        [MutStep.resize r.upd_meta.size]
      else []
    if info.mutates_metadata && !info.mutates_data then
      if trace_joint && !r.upd_is_tensor_alias then none
      else some (resizeSteps ++ [MutStep.restride r.upd_meta])
    else
      let preSteps : Option (List MutStep) :=
        if info.mutates_data && info.mutates_metadata then
          some [MutStep.restride r.upd_meta]
        else if info.mutates_data then some []
        else none
      match preSteps with
      | none => none
      | some pre =>
          some (resizeSteps ++ pre
            ++ [if info.is_leaf && r.orig_requires_grad then
                  MutStep.copyFromDetached r.upd_value
                else MutStep.copyFrom r.upd_value])

/-- `mutated_inp_runtime_indices`, precomputed in
`ViewAndMutationMeta.__post_init__` (source lines 468-470). -/
def mutatedInpRuntimeIndices {α : Type} (m : ViewAndMutationMeta α) :
    List Nat :=
  (List.range m.input_info.length).filter fun i =>
    (m.input_info.getD i default).mutates_metadata
      || (!m.keep_input_mutations && (m.input_info.getD i default).mutates_data)

/-! ### Functional-graph assertion (`assert_functional_graph`) -/

/-- The target of an fx node: either not an `OpOverload` at all
(placeholders and outputs carry string targets), or an operator with the
two facts the checker consumes — whether it is `aten.copy_.default` and
whether its schema is mutable. -/
inductive FxTarget
  | notOp
  | op (is_copy_default : Bool) (schema_mutable : Bool)
deriving DecidableEq, Repr, Inhabited

/-- One node of the traced fx graph: its identity (`nid`, nodes hash by
identity in the `placeholders` set), whether its `op` field is
`"placeholder"`, its target, and the identities of its argument nodes. -/
structure FxNode where
  nid : Nat
  is_placeholder : Bool
  target : FxTarget
  args : List Nat
deriving DecidableEq, Repr, Inhabited

/-- Whether the node's target is `aten.copy_.default`. -/
def nodeIsCopy (n : FxNode) : Bool :=
  match n.target with
  | .notOp => false
  | .op c _ => c

/-- Whether the node's target is an operator with a mutable schema. -/
def nodeMutable (n : FxNode) : Bool :=
  match n.target with
  | .notOp => false
  | .op _ m => m

/-- The loop of `assert_functional_graph` (source lines 1312-1324),
carrying the `placeholders` set (as the list of identities of the
placeholder nodes seen and not yet consumed) and `copy_count`.  `none`
models a raised assertion (including the out-of-range `n.args[0]` on an
argument-less copy node). -/
def assertFunctionalGraphGo (allow_input_mutations : Bool) :
    List FxNode → List Nat → Nat → Option Nat
  | [], _, copy_count => some copy_count
  | n :: rest, placeholders, copy_count =>
    let ph := if n.is_placeholder then placeholders ++ [n.nid]
      else placeholders
    if n.target = FxTarget.notOp then
      assertFunctionalGraphGo allow_input_mutations rest ph copy_count
    else if nodeIsCopy n && allow_input_mutations then
      match n.args with
      | [] => none
      | a :: _ =>
        if ph.contains a then
          assertFunctionalGraphGo allow_input_mutations rest (ph.erase a)
            (copy_count + 1)
        else none
    else if nodeMutable n then none
    else assertFunctionalGraphGo allow_input_mutations rest ph copy_count

/-- `assert_functional_graph`: walk the nodes and return the number of
detected `copy_` nodes, or `none` when an assertion fires. -/
def assert_functional_graph (nodes : List FxNode)
    (allow_input_mutations : Bool) : Option Nat :=
  assertFunctionalGraphGo allow_input_mutations nodes [] 0

/-- Claim-side condition on the mutable nodes of a graph, generalized by
a list `avail` of placeholder identities assumed introduced before the
listed nodes: every node with a mutable operator schema occurs only with
`allow_input_mutations`, is a `copy_`, and its first argument is either
in `avail` or the identity of a placeholder node appearing strictly
earlier in the list. -/
def MutableNodesOK (allow_input_mutations : Bool) (avail : List Nat)
    (nodes : List FxNode) : Prop :=
  ∀ pre n post, nodes = pre ++ n :: post → nodeMutable n = true →
    allow_input_mutations = true ∧ nodeIsCopy n = true
      ∧ ∃ a, n.args.head? = some a
        ∧ (a ∈ avail ∨ ∃ p ∈ pre, p.is_placeholder = true ∧ p.nid = a)

/-- Claim-side condition: no two `copy_` nodes target the same
placeholder (their first arguments are pairwise distinct). -/
def CopyTargetsDistinct (nodes : List FxNode) : Prop :=
  (nodes.filter nodeIsCopy).Pairwise fun n1 n2 =>
    n1.args.head? ≠ n2.args.head?

/-- The claim-side reading of the post-trace invariant for the whole
graph: every mutable-schema node is an allowed `copy_` into an earlier
placeholder, and the copies hit pairwise distinct placeholders. -/
def FunctionalGraphOK (allow_input_mutations : Bool)
    (nodes : List FxNode) : Prop :=
  MutableNodesOK allow_input_mutations [] nodes
    ∧ CopyTargetsDistinct nodes

/-- Well-formedness facts about real fx graphs, used by claim C8:
`aten.copy_.default` has a mutable schema, placeholder nodes carry a
string target (not an `OpOverload`), and placeholder identities are
pairwise distinct. -/
def FxGraphWF (nodes : List FxNode) : Prop :=
  (∀ n ∈ nodes, nodeIsCopy n = true → nodeMutable n = true)
    ∧ (∀ n ∈ nodes, n.is_placeholder = true → n.target = FxTarget.notOp)
    ∧ ((nodes.filter (fun x => x.is_placeholder)).map (fun x => x.nid)).Nodup

instance (nodes : List FxNode) : Decidable (FxGraphWF nodes) := by
  unfold FxGraphWF
  infer_instance

/-! ### Double-backward guard (`CompiledFunction.backward`) -/

/-- What the backward routing decision inspects about one element of
`all_args`: whether it is a tensor and whether it requires gradients. -/
structure BArg where
  is_tensor : Bool
  requires_grad : Bool
deriving DecidableEq, Repr, Inhabited

/-- How `CompiledFunction.backward` reaches the compiled backward. -/
inductive BackwardRoute
  | throughInnerNode
  | directCall
deriving DecidableEq, Repr, Inhabited

/-- The routing decision of source lines 2549-2564: with grad mode
enabled and any gradient-requiring tensor among `all_args`, the call
goes through the inner `CompiledFunctionBackward` autograd node. -/
def backwardRoute (grad_enabled : Bool) (all_args : List BArg) :
    BackwardRoute :=
  if grad_enabled && all_args.any (fun t => t.is_tensor && t.requires_grad) then
    BackwardRoute.throughInnerNode
  else
    BackwardRoute.directCall

/-- The message of the `RuntimeError` raised on double backward (source
line 2560). -/
def doubleBackwardMsg : String :=
  "torch.compile with aot_autograd does not currently support double backward"

/-- `CompiledFunctionBackward.backward` (source lines 2558-2560): it
raises unconditionally. -/
def compiledFunctionBackwardBackward (grads : List Nat) :
    Except String (List Nat) :=
  Except.error doubleBackwardMsg

/-! ### Metadata equality (`ViewAndMutationMeta.__eq__`) -/

/-- A traced tangent sample value as `__eq__` sees it: its shape, dtype
and underlying data (`value`), the last of which `__eq__` never reads. -/
structure TracedTangent where
  shape : List Nat
  dtype : Nat
  value : Int
deriving DecidableEq, Repr, Inhabited

/-- `ViewAndMutationMeta.__eq__` (source lines 533-542): field-wise
comparison, with `traced_tangents` compared only by length and pairwise
shape/dtype (python's `zip` truncates, hence the explicit length
check). -/
def viewAndMutationMetaEq
    (a b : ViewAndMutationMeta TracedTangent) : Bool :=
  decide (a.input_info = b.input_info)
    && decide (a.output_info = b.output_info)
    && decide (a.requires_grad_info = b.requires_grad_info)
    && decide (a.num_intermediate_bases = b.num_intermediate_bases)
    && decide (a.keep_input_mutations = b.keep_input_mutations)
    && decide (a.traced_tangents.length = b.traced_tangents.length)
    && (a.traced_tangents.zip b.traced_tangents).all
        (fun p => decide (p.1.shape = p.2.shape) && decide (p.1.dtype = p.2.dtype))

/-! ### Lemmas about the analyzer -/

/-- Each classification step appends exactly one record, and that record
has a base index exactly when its output type is neither `non_alias` nor
the unsafe-view-alias type. -/
lemma classifyStep_appends (args : List FArg) (outs : List FOut)
    (s : ClassifierState) (o : FOut) :
    ∃ r, (classifyStep args outs s o).output_info = s.output_info ++ [r] ∧
      (r.base_idx.isSome = true ↔
        (r.output_type ≠ OutputType.non_alias
          ∧ r.output_type ≠ OutputType.uv_alias)) := by
  unfold classifyStep
  repeat' split
  all_goals exact ⟨_, rfl, by simp⟩

/-- The classification fold preserves the amended base-index invariant. -/
lemma classify_foldl_base_idx (args : List FArg) (outs : List FOut) :
    ∀ (l : List FOut) (s : ClassifierState),
      (∀ r ∈ s.output_info,
        (r.base_idx.isSome = true ↔
          (r.output_type ≠ OutputType.non_alias
            ∧ r.output_type ≠ OutputType.uv_alias))) →
      ∀ r ∈ (l.foldl (classifyStep args outs) s).output_info,
        (r.base_idx.isSome = true ↔
          (r.output_type ≠ OutputType.non_alias
            ∧ r.output_type ≠ OutputType.uv_alias)) := by
  intro l
  induction l with
  | nil => intro s h; exact h
  | cons o rest ih =>
    intro s h
    rw [List.foldl_cons]
    apply ih
    obtain ⟨r0, heq, hr0⟩ := classifyStep_appends args outs s o
    intro r hr
    rw [heq, List.mem_append] at hr
    rcases hr with hr | hr
    · exact h r hr
    · rw [List.mem_singleton] at hr
      exact hr ▸ hr0

/-- A successful claim-side input-storage search returns a position that
indeed holds a tensor input with the searched storage. -/
lemma specFindInput_some (args : List FArg) (s : Nat) :
    ∀ i, specFindInput args s = some i →
      i < args.length ∧ (args.getD i default).is_tensor = true
        ∧ (args.getD i default).storage = s := by
  induction args with
  | nil => intro i h; simp [specFindInput] at h
  | cons a rest ih =>
    intro i h
    unfold specFindInput at h
    by_cases hc : (a.is_tensor && a.storage == s) = true
    · rw [if_pos hc] at h
      injection h with h
      subst h
      simp only [Bool.and_eq_true, beq_iff_eq] at hc
      exact ⟨Nat.succ_pos _, by simpa using hc.1, by simpa using hc.2⟩
    · rw [if_neg hc] at h
      cases hrec : specFindInput rest s with
      | none => rw [hrec] at h; simp at h
      | some j =>
        rw [hrec] at h
        simp only [Option.map_some'] at h
        injection h with h
        subst h
        obtain ⟨h1, h2, h3⟩ := ih j hrec
        exact ⟨Nat.succ_lt_succ h1, by simpa using h2, by simpa using h3⟩

/-- A failed claim-side input-storage search means no tensor input has the
searched storage. -/
lemma specFindInput_none (args : List FArg) (s : Nat) :
    specFindInput args s = none →
    ∀ a ∈ args, a.is_tensor = true → a.storage ≠ s := by
  induction args with
  | nil => intro _ a ha; cases ha
  | cons b rest ih =>
    intro h a ha ht
    unfold specFindInput at h
    by_cases hc : (b.is_tensor && b.storage == s) = true
    · rw [if_pos hc] at h; cases h
    · rw [if_neg hc] at h
      rw [Option.map_eq_none'] at h
      rcases List.mem_cons.mp ha with rfl | ha'
      · intro hs; apply hc; simp [ht, hs]
      · exact ih h a ha' ht

/-- Unfolding equation for `dictLookup` on a cons cell. -/
lemma dictLookup_cons (p : Nat × Nat) (ps : List (Nat × Nat)) (k : Nat) :
    dictLookup (p :: ps) k
      = match dictLookup ps k with
        | some v => some v
        | none => if p.1 = k then some p.2 else none := rfl

/-- Unfolding equation for `specFindInput` on a cons cell. -/
lemma specFindInput_cons (a : FArg) (rest : List FArg) (s : Nat) :
    specFindInput (a :: rest) s
      = if a.is_tensor && a.storage == s then some 0
        else (specFindInput rest s).map (· + 1) := rfl

/-- Unfolding equation for `lastOutIdxOf` on a cons cell. -/
lemma lastOutIdxOf_cons (o : FOut) (rest : List FOut) (t : Nat) :
    lastOutIdxOf (o :: rest) t
      = match lastOutIdxOf rest t with
        | some j => some (j + 1)
        | none => if o.tid = t then some 0 else none := rfl

/-- Unfolding equation for `firstBaseIdxOf` on a cons cell. -/
lemma firstBaseIdxOf_cons (b : TensorBase) (rest : List TensorBase) (t : Nat) :
    firstBaseIdxOf (b :: rest) t
      = if b.tid = t then some 0 else (firstBaseIdxOf rest t).map (· + 1) := rfl

/-- With pairwise-distinct tensor-input storages, the source's
`inp_storage_refs` dict lookup (which keeps the last binding of a storage)
agrees with the claim-side first-match search, up to an index offset. -/
lemma dictLookup_inpStorageRefsGo (s : Nat) :
    ∀ (args : List FArg) (i : Nat),
      ((args.filter (·.is_tensor)).map (·.storage)).Nodup →
      dictLookup (inpStorageRefsGo i args) s
        = (specFindInput args s).map (· + i) := by
  intro args
  induction args with
  | nil => intro i _; rfl
  | cons a rest ih =>
    intro i hnd
    by_cases ht : a.is_tensor = true
    · rw [List.filter_cons_of_pos ht, List.map_cons, List.nodup_cons] at hnd
      have hgo : inpStorageRefsGo i (a :: rest)
          = (a.storage, i) :: inpStorageRefsGo (i + 1) rest := by
        show (if a.is_tensor then [(a.storage, i)] else [])
            ++ inpStorageRefsGo (i + 1) rest = _
        rw [if_pos ht, List.singleton_append]
      rw [hgo, dictLookup_cons, ih (i + 1) hnd.2, specFindInput_cons]
      by_cases hs : a.storage = s
      · have hnone : specFindInput rest s = none := by
          cases hrec : specFindInput rest s with
          | none => rfl
          | some j =>
            obtain ⟨h1, h2, h3⟩ := specFindInput_some rest s j hrec
            exfalso
            apply hnd.1
            rw [List.mem_map]
            refine ⟨rest.getD j default, ?_, by rw [h3, hs]⟩
            rw [List.mem_filter]
            constructor
            · rw [List.getD_eq_getElem _ _ h1]; exact List.getElem_mem h1
            · exact h2
        rw [hnone]
        simp [ht, hs]
      · cases hrec : specFindInput rest s with
        | none => simp [hs, ht]
        | some j =>
          simp [hs, ht, Nat.add_comm, Nat.add_assoc, Nat.add_left_comm]
    · rw [List.filter_cons_of_neg ht] at hnd
      have hgo : inpStorageRefsGo i (a :: rest) = inpStorageRefsGo (i + 1) rest := by
        show (if a.is_tensor then [(a.storage, i)] else [])
            ++ inpStorageRefsGo (i + 1) rest = _
        rw [if_neg ht, List.nil_append]
      rw [hgo, ih (i + 1) hnd, specFindInput_cons]
      cases hrec : specFindInput rest s with
      | none => simp [ht]
      | some j => simp [ht, Nat.add_comm, Nat.add_assoc, Nat.add_left_comm]

/-- Under distinct tensor-input storages, two tensor inputs with the same
storage are the same record. -/
lemma tensor_storage_unique (args : List FArg)
    (hnd : ((args.filter (·.is_tensor)).map (·.storage)).Nodup) :
    ∀ a ∈ args, a.is_tensor = true →
    ∀ b ∈ args, b.is_tensor = true →
    a.storage = b.storage → a = b := by
  induction args with
  | nil => intro a ha; cases ha
  | cons c rest ih =>
    intro a ha hat b hb hbt hab
    by_cases hct : c.is_tensor = true
    · rw [List.filter_cons_of_pos hct, List.map_cons, List.nodup_cons] at hnd
      rcases List.mem_cons.mp ha with rfl | ha' <;>
        rcases List.mem_cons.mp hb with rfl | hb'
      · rfl
      · exfalso
        apply hnd.1
        rw [List.mem_map]
        exact ⟨b, List.mem_filter.mpr ⟨hb', hbt⟩, hab.symm⟩
      · exfalso
        apply hnd.1
        rw [List.mem_map]
        exact ⟨a, List.mem_filter.mpr ⟨ha', hat⟩, hab⟩
      · exact ih hnd.2 a ha' hat b hb' hbt hab
    · rw [List.filter_cons_of_neg hct] at hnd
      rcases List.mem_cons.mp ha with rfl | ha'
      · exact absurd hat hct
      rcases List.mem_cons.mp hb with rfl | hb'
      · exact absurd hbt hct
      exact ih hnd a ha' hat b hb' hbt hab

/-- Under well-formedness, the source's identity test "the output **is**
some input" agrees with the claim-side test "the output is the same tensor
instance as the storage-matched input". -/
lemma contains_inpTensorIds_iff (args : List FArg) (outs : List FOut)
    (hWF : AnalyzerWF args outs) (o : FOut) (ho : o ∈ outs)
    (hot : o.is_tensor = true) (k : Nat)
    (hk : specFindInput args o.storage = some k) :
    ((inpTensorIds args).contains o.tid = true ↔
      (o.tid == (args.getD k default).tid) = true) := by
  obtain ⟨hklt, hkt, hks⟩ := specFindInput_some args o.storage k hk
  constructor
  · intro hc
    have hmem : o.tid ∈ inpTensorIds args := List.elem_iff.mp hc
    rw [inpTensorIds, List.mem_map] at hmem
    obtain ⟨a, hafil, hatid⟩ := hmem
    rw [List.mem_filter] at hafil
    have hstor : a.storage = o.storage :=
      hWF.2 a hafil.1 hafil.2 o ho hot hatid
    have haeq : a = args.getD k default := by
      apply tensor_storage_unique args hWF.1 a hafil.1 hafil.2
          (args.getD k default) ?_ hkt (by rw [hstor, hks])
      rw [List.getD_eq_getElem _ _ hklt]
      exact List.getElem_mem hklt
    rw [beq_iff_eq, ← haeq, hatid]
  · intro hc
    rw [beq_iff_eq] at hc
    apply List.elem_iff.mpr
    rw [inpTensorIds, List.mem_map]
    refine ⟨args.getD k default, List.mem_filter.mpr ⟨?_, hkt⟩, hc.symm⟩
    rw [List.getD_eq_getElem _ _ hklt]
    exact List.getElem_mem hklt

/-- The source's `out_tensor_ids` dict lookup is the last-occurrence search
among the outputs, up to an index offset. -/
lemma dictLookup_outTensorIdsGo (t : Nat) :
    ∀ (outs : List FOut) (i : Nat),
      dictLookup (outTensorIdsGo i outs) t = (lastOutIdxOf outs t).map (· + i) := by
  intro outs
  induction outs with
  | nil => intro i; rfl
  | cons o rest ih =>
    intro i
    have hgo : outTensorIdsGo i (o :: rest)
        = (o.tid, i) :: outTensorIdsGo (i + 1) rest := rfl
    rw [hgo, dictLookup_cons, ih (i + 1), lastOutIdxOf_cons]
    cases hrec : lastOutIdxOf rest t with
    | some j => simp [Nat.add_comm, Nat.add_assoc, Nat.add_left_comm]
    | none => by_cases h : o.tid = t <;> simp [h]

/-- A failed first-occurrence search among intermediate bases means no base
has the searched id. -/
lemma firstBaseIdxOf_none (bases : List TensorBase) (t : Nat) :
    firstBaseIdxOf bases t = none → t ∉ bases.map (·.tid) := by
  induction bases with
  | nil => intro _ h; cases h
  | cons b rest ih =>
    intro h hmem
    unfold firstBaseIdxOf at h
    by_cases hb : b.tid = t
    · rw [if_pos hb] at h; cases h
    · rw [if_neg hb] at h
      rw [Option.map_eq_none'] at h
      rcases List.mem_cons.mp hmem with hmem | hmem
      · exact hb hmem.symm
      · exact ih h hmem

/-- A successful first-occurrence search among intermediate bases means
some base has the searched id. -/
lemma firstBaseIdxOf_some_mem (bases : List TensorBase) (t : Nat) :
    ∀ j, firstBaseIdxOf bases t = some j → t ∈ bases.map (·.tid) := by
  induction bases with
  | nil => intro j h; cases h
  | cons b rest ih =>
    intro j h
    unfold firstBaseIdxOf at h
    by_cases hb : b.tid = t
    · exact List.mem_cons.mpr (Or.inl hb.symm)
    · rw [if_neg hb] at h
      cases hrec : firstBaseIdxOf rest t with
      | none => rw [hrec] at h; cases h
      | some j' =>
        exact List.mem_cons.mpr (Or.inr (ih j' hrec))

/-- With pairwise-distinct base ids, the source's intermediate-base dict
lookup agrees with the claim-side first-occurrence search, up to an index
offset. -/
lemma dictLookup_ibMapOfGo (t : Nat) :
    ∀ (bases : List TensorBase) (i : Nat),
      (bases.map (·.tid)).Nodup →
      dictLookup (ibMapOfGo i bases) t = (firstBaseIdxOf bases t).map (· + i) := by
  intro bases
  induction bases with
  | nil => intro i _; rfl
  | cons b rest ih =>
    intro i hnd
    rw [List.map_cons, List.nodup_cons] at hnd
    have hgo : ibMapOfGo i (b :: rest) = (b.tid, i) :: ibMapOfGo (i + 1) rest := rfl
    rw [hgo, dictLookup_cons, ih (i + 1) hnd.2, firstBaseIdxOf_cons]
    by_cases hb : b.tid = t
    · have hnone : firstBaseIdxOf rest t = none := by
        cases hrec : firstBaseIdxOf rest t with
        | none => rfl
        | some j =>
          exact absurd (hb ▸ firstBaseIdxOf_some_mem rest t j hrec) hnd.1
      rw [hnone]
      simp [hb]
    · cases hrec : firstBaseIdxOf rest t with
      | none => simp [hb]
      | some j => simp [hb, Nat.add_comm, Nat.add_assoc, Nat.add_left_comm]

/-- Clean form of the input-storage dict agreement. -/
lemma dictLookup_inpStorageRefs (args : List FArg) (s : Nat)
    (hnd : ((args.filter (·.is_tensor)).map (·.storage)).Nodup) :
    dictLookup (inpStorageRefs args) s = specFindInput args s := by
  rw [inpStorageRefs, dictLookup_inpStorageRefsGo s args 0 hnd]
  cases specFindInput args s <;> simp

/-- Clean form of the output-ids dict agreement. -/
lemma dictLookup_outTensorIds (outs : List FOut) (t : Nat) :
    dictLookup (outTensorIds outs) t = lastOutIdxOf outs t := by
  rw [outTensorIds, dictLookup_outTensorIdsGo t outs 0]
  cases lastOutIdxOf outs t <;> simp

/-- Clean form of the intermediate-base dict agreement. -/
lemma dictLookup_ibMap (bases : List TensorBase) (t : Nat)
    (hnd : (bases.map (·.tid)).Nodup) :
    dictLookup (ibMapOf bases) t = firstBaseIdxOf bases t := by
  rw [ibMapOf, dictLookup_ibMapOfGo t bases 0 hnd]
  cases firstBaseIdxOf bases t <;> simp

/-- Appending one base to the base list appends one binding to the
reconstructed dict. -/
lemma ibMapOfGo_append (b : TensorBase) :
    ∀ (bases : List TensorBase) (i : Nat),
      ibMapOfGo i (bases ++ [b]) = ibMapOfGo i bases ++ [(b.tid, i + bases.length)] := by
  intro bases
  induction bases with
  | nil => intro i; simp [ibMapOfGo]
  | cons c rest ih =>
    intro i
    show (c.tid, i) :: ibMapOfGo (i + 1) (rest ++ [b])
        = (c.tid, i) :: ibMapOfGo (i + 1) rest ++ [(b.tid, i + (rest.length + 1))]
    rw [ih (i + 1)]
    simp [Nat.add_comm, Nat.add_assoc, Nat.add_left_comm]

/-- Entry-point form of `ibMapOfGo_append`. -/
lemma ibMapOf_append (bases : List TensorBase) (b : TensorBase) :
    ibMapOf (bases ++ [b]) = ibMapOf bases ++ [(b.tid, bases.length)] := by
  rw [ibMapOf, ibMapOf, ibMapOfGo_append]
  simp

/-- One classification step of the source agrees with one claim-side step
and maintains the correspondence invariants between the two states. -/
lemma classifyStep_agrees (args : List FArg) (outs : List FOut)
    (hWF : AnalyzerWF args outs) (o : FOut) (ho : o ∈ outs)
    (sc : ClassifierState) (ss : SpecClassifierState)
    (h1 : sc.output_info = ss.output_info)
    (h2 : sc.intermediate_bases = ss.seen_bases)
    (h3 : sc.ib_map = ibMapOf sc.intermediate_bases)
    (h4 : (sc.intermediate_bases.map (·.tid)).Nodup) :
    (classifyStep args outs sc o).output_info
        = (specClassifyStep args outs ss o).output_info
      ∧ (classifyStep args outs sc o).intermediate_bases
        = (specClassifyStep args outs ss o).seen_bases
      ∧ (classifyStep args outs sc o).ib_map
        = ibMapOf (classifyStep args outs sc o).intermediate_bases
      ∧ ((classifyStep args outs sc o).intermediate_bases.map (·.tid)).Nodup := by
  have h4s : (List.map (fun x => x.tid) ss.seen_bases).Nodup := h2 ▸ h4
  by_cases hot : o.is_tensor = true
  · have hdict := dictLookup_inpStorageRefs args o.storage hWF.1
    cases hfind : specFindInput args o.storage with
    | some k =>
      have hcont := contains_inpTensorIds_iff args outs hWF o ho hot k hfind
      by_cases hc : (inpTensorIds args).contains o.tid = true
      · have hmem : o.tid ∈ inpTensorIds args := List.elem_iff.mp hc
        have heq : o.tid = (args.getD k default).tid :=
          beq_iff_eq.mp (hcont.mp hc)
        refine ⟨?_, ?_, ?_, ?_⟩ <;>
          [skip; skip; skip; skip] <;>
          first
          | (simp [classifyStep, specClassifyStep, hot, hdict, hfind,
              h1, h2, h3, h4, h4s]
             rw [if_pos hmem, if_pos (by simpa using heq)])
          | simp [classifyStep, specClassifyStep, hot, hdict, hfind,
              h1, h2, h3, h4, h4s]
      · have hmem : o.tid ∉ inpTensorIds args := fun hm => hc (List.elem_iff.mpr hm)
        have heq : ¬o.tid = (args.getD k default).tid :=
          fun he => hc ((hcont).mpr (beq_iff_eq.mpr he))
        refine ⟨?_, ?_, ?_, ?_⟩ <;>
          first
          | (simp [classifyStep, specClassifyStep, hot, hdict, hfind,
              h1, h2, h3, h4, h4s]
             rw [if_neg hmem, if_neg (by simpa using heq)])
          | simp [classifyStep, specClassifyStep, hot, hdict, hfind,
              h1, h2, h3, h4, h4s]
    | none =>
      cases hbase : o.base with
      | none =>
        refine ⟨?_, ?_, ?_, ?_⟩ <;>
          simp [classifyStep, specClassifyStep, hot, hdict, hfind, hbase,
            h1, h2, h3, h4, h4s]
      | some b =>
        by_cases hrg : (o.requires_grad && b.requires_grad) = true
        · by_cases hcnt : (outAliasCount outs o.storage == 1) = true
          · refine ⟨?_, ?_, ?_, ?_⟩ <;>
              simp [classifyStep, specClassifyStep, hot, hdict, hfind, hbase,
                hrg, hcnt, h1, h2, h3, h4, h4s]
          · have hout := dictLookup_outTensorIds outs b.tid
            cases hlast : lastOutIdxOf outs b.tid with
            | some j =>
              refine ⟨?_, ?_, ?_, ?_⟩ <;>
                simp [classifyStep, specClassifyStep, hot, hdict, hfind, hbase,
                  hrg, hcnt, hout, hlast, h1, h2, h3, h4, h4s]
            | none =>
              have hib : dictLookup sc.ib_map b.tid
                  = firstBaseIdxOf ss.seen_bases b.tid := by
                rw [h3, dictLookup_ibMap _ _ h4, h2]
              have hib0 : dictLookup (ibMapOf ss.seen_bases) b.tid
                  = firstBaseIdxOf ss.seen_bases b.tid :=
                dictLookup_ibMap ss.seen_bases b.tid h4s
              cases hfb : firstBaseIdxOf ss.seen_bases b.tid with
              | some jb =>
                refine ⟨?_, ?_, ?_, ?_⟩ <;>
                  simp [classifyStep, specClassifyStep, hot, hdict, hfind,
                    hbase, hrg, hcnt, hout, hlast, hib, hib0, hfb, h1, h2, h3, h4, h4s]
              | none =>
                have hnotmem : b.tid ∉ sc.intermediate_bases.map (·.tid) := by
                  rw [h2]; exact firstBaseIdxOf_none ss.seen_bases b.tid hfb
                have hbases : (classifyStep args outs sc o).intermediate_bases
                    = sc.intermediate_bases ++ [b] := by
                  simp [classifyStep, hot, hdict, hfind, hbase, hrg, hcnt,
                    hout, hlast, hib, hib0, hfb, h2]
                refine ⟨?_, ?_, ?_, ?_⟩
                · simp [classifyStep, specClassifyStep, hot, hdict, hfind,
                    hbase, hrg, hcnt, hout, hlast, hib, hib0, hfb, h1, h2]
                · simp [classifyStep, specClassifyStep, hot, hdict, hfind,
                    hbase, hrg, hcnt, hout, hlast, hib, hib0, hfb, h2]
                · rw [hbases, ibMapOf_append, ← h3]
                  simp [classifyStep, hot, hdict, hfind,
                    hbase, hrg, hcnt, hout, hlast, hib, hib0, hfb]
                · rw [hbases, List.map_append, List.map_singleton]
                  apply List.Nodup.append h4 (List.nodup_singleton _)
                  intro x hx hx'
                  rw [List.mem_singleton] at hx'
                  exact hnotmem (hx' ▸ hx)
        · refine ⟨?_, ?_, ?_, ?_⟩ <;>
            simp [classifyStep, specClassifyStep, hot, hdict, hfind, hbase,
              hrg, h1, h2, h3, h4, h4s]
  · refine ⟨?_, ?_, ?_, ?_⟩ <;>
      simp [classifyStep, specClassifyStep, hot, h1, h2, h3, h4, h4s]

/-- The classification folds of the source and of the claim agree on every
suffix of outputs, from corresponding states. -/
lemma classify_foldl_agrees (args : List FArg) (outs : List FOut)
    (hWF : AnalyzerWF args outs) :
    ∀ (l : List FOut), (∀ o ∈ l, o ∈ outs) →
      ∀ (sc : ClassifierState) (ss : SpecClassifierState),
      sc.output_info = ss.output_info →
      sc.intermediate_bases = ss.seen_bases →
      sc.ib_map = ibMapOf sc.intermediate_bases →
      (sc.intermediate_bases.map (·.tid)).Nodup →
      (l.foldl (classifyStep args outs) sc).output_info
          = (l.foldl (specClassifyStep args outs) ss).output_info
        ∧ (l.foldl (classifyStep args outs) sc).intermediate_bases
          = (l.foldl (specClassifyStep args outs) ss).seen_bases := by
  intro l
  induction l with
  | nil => intro _ sc ss h1 h2 _ _; exact ⟨h1, h2⟩
  | cons o rest ih =>
    intro hsub sc ss h1 h2 h3 h4
    obtain ⟨g1, g2, g3, g4⟩ :=
      classifyStep_agrees args outs hWF o (hsub o (List.mem_cons_self o rest))
        sc ss h1 h2 h3 h4
    simp only [List.foldl_cons]
    exact ih (fun x hx => hsub x (List.mem_cons.mpr (Or.inr hx))) _ _ g1 g2 g3 g4

/-! ### Lemmas about synthetic-base merging -/

/-- Unfolding equation for `tensorIdxsFrom` on a cons cell. -/
lemma tensorIdxsFrom_cons (s i : Nat) (a : MArg) (rest : List MArg) :
    tensorIdxsFrom s i (a :: rest)
      = (if a.is_tensor && a.storage == s then [i] else [])
          ++ tensorIdxsFrom s (i + 1) rest := rfl

/-- Unfolding equation for `nonTensorIdxsFrom` on a cons cell. -/
lemma nonTensorIdxsFrom_cons (i : Nat) (a : MArg) (rest : List MArg) :
    nonTensorIdxsFrom i (a :: rest)
      = (if a.is_tensor then [] else [i]) ++ nonTensorIdxsFrom (i + 1) rest := rfl

/-- A `contains = false` fact turned into non-membership. -/
lemma contains_false_not_mem {l : List Nat} {x : Nat}
    (h : l.contains x = false) : x ∉ l := by
  intro hm
  have he : List.elem x l = true := List.elem_iff.mpr hm
  rw [show l.contains x = List.elem x l from rfl, he] at h
  cases h

/-- Unfolding equation for `newStoragesFrom` on a cons cell. -/
lemma newStoragesFrom_cons (seen : List Nat) (a : MArg) (rest : List MArg) :
    newStoragesFrom seen (a :: rest)
      = if a.is_tensor && !seen.contains a.storage then
          a.storage :: newStoragesFrom (seen ++ [a.storage]) rest
        else newStoragesFrom seen rest := rfl

/-- A storage emitted by `newStoragesFrom` was not among the seen ones. -/
lemma newStoragesFrom_not_mem :
    ∀ (l : List MArg) (seen : List Nat) (s : Nat),
      s ∈ newStoragesFrom seen l → s ∉ seen := by
  intro l
  induction l with
  | nil => intro seen s h; cases h
  | cons a rest ih =>
    intro seen s h
    unfold newStoragesFrom at h
    by_cases hc : (a.is_tensor && !seen.contains a.storage) = true
    · rw [if_pos hc] at h
      rcases List.mem_cons.mp h with rfl | h'
      · simp only [Bool.and_eq_true, Bool.not_eq_true'] at hc
        exact contains_false_not_mem hc.2
      · intro hmem
        exact ih (seen ++ [a.storage]) s h' (List.mem_append.mpr (Or.inl hmem))
    · rw [if_neg hc] at h
      exact ih seen s h

/-- Inserting a fresh storage appends a new singleton group. -/
lemma addToGroups_not_mem :
    ∀ (gs : List (Nat × List Nat)) (s i : Nat),
      s ∉ gs.map (·.1) → addToGroups gs s i = gs ++ [(s, [i])] := by
  intro gs
  induction gs with
  | nil => intro s i _; rfl
  | cons p rest ih =>
    intro s i h
    rw [List.map_cons, List.mem_cons] at h
    push_neg at h
    show (if p.1 == s then (p.1, p.2 ++ [i]) :: rest
        else (p.1, p.2) :: addToGroups rest s i) = _
    rw [if_neg (by simpa using fun he => h.1 he.symm)]
    rw [ih s i h.2]
    rfl

/-- Inserting an already-present storage (with pairwise-distinct keys)
extends exactly that storage's group. -/
lemma addToGroups_mem :
    ∀ (gs : List (Nat × List Nat)) (s i : Nat),
      (gs.map (·.1)).Nodup → s ∈ gs.map (·.1) →
      addToGroups gs s i
        = gs.map fun p => if p.1 = s then (p.1, p.2 ++ [i]) else p := by
  intro gs
  induction gs with
  | nil => intro s i _ h; cases h
  | cons p rest ih =>
    intro s i hnd hmem
    rw [List.map_cons, List.nodup_cons] at hnd
    show (if p.1 == s then (p.1, p.2 ++ [i]) :: rest
        else (p.1, p.2) :: addToGroups rest s i) = _
    by_cases hp : p.1 = s
    · rw [if_pos (by simpa using hp), List.map_cons, if_pos hp]
      congr 1
      have : ∀ q ∈ rest, (if q.1 = s then (q.1, q.2 ++ [i]) else q) = q := by
        intro q hq
        rw [if_neg]
        intro hqs
        exact hnd.1 (hp ▸ hqs ▸ List.mem_map.mpr ⟨q, hq, rfl⟩)
      rw [List.map_congr_left this]
      simp
    · rw [if_neg (by simpa using hp), List.map_cons, if_neg hp]
      rcases List.mem_cons.mp hmem with h | h
      · exact absurd h.symm hp
      · rw [ih s i hnd.2 h]

/-- Non-membership turned into a `contains = false` fact. -/
lemma not_mem_contains_false {l : List Nat} {x : Nat}
    (h : x ∉ l) : l.contains x = false := by
  cases hc : l.contains x with
  | false => rfl
  | true => exact absurd (List.elem_iff.mp hc) h

/-- The group keys after inserting a fresh storage. -/
lemma addToGroups_keys_not_mem (gs : List (Nat × List Nat)) (s i : Nat)
    (h : s ∉ gs.map (·.1)) :
    (addToGroups gs s i).map (·.1) = gs.map (·.1) ++ [s] := by
  rw [addToGroups_not_mem gs s i h, List.map_append]
  rfl

/-- The group keys after extending an existing storage's group. -/
lemma addToGroups_keys_mem (gs : List (Nat × List Nat)) (s i : Nat)
    (hnd : (gs.map (·.1)).Nodup) (h : s ∈ gs.map (·.1)) :
    (addToGroups gs s i).map (·.1) = gs.map (·.1) := by
  rw [addToGroups_mem gs s i hnd h, List.map_map]
  apply List.map_congr_left
  intro p _
  by_cases hp : p.1 = s <;> simp [hp]

/-- The first loop of `merge_view_inputs` computes: every pre-existing
group extended by the matching indices of the remaining arguments, then one
group per new storage in first-occurrence order, and the non-tensor indices
appended in original order. -/
lemma storageGroupsGo_spec :
    ∀ (rest : List MArg) (gs : List (Nat × List Nat)) (others : List Nat)
      (i : Nat), (gs.map (·.1)).Nodup →
      storageGroupsGo gs others i rest
        = (gs.map (fun p => (p.1, p.2 ++ tensorIdxsFrom p.1 i rest))
            ++ (newStoragesFrom (gs.map (·.1)) rest).map
                (fun s => (s, tensorIdxsFrom s i rest)),
           others ++ nonTensorIdxsFrom i rest) := by
  intro rest
  induction rest with
  | nil =>
    intro gs others i _
    show (gs, others) = _
    simp [tensorIdxsFrom, nonTensorIdxsFrom, newStoragesFrom]
  | cons a rest ih =>
    intro gs others i hnd
    by_cases ht : a.is_tensor = true
    · have hstep : storageGroupsGo gs others i (a :: rest)
          = storageGroupsGo (addToGroups gs a.storage i) others (i + 1) rest := by
        show (if a.is_tensor then
            storageGroupsGo (addToGroups gs a.storage i) others (i + 1) rest
          else storageGroupsGo gs (others ++ [i]) (i + 1) rest) = _
        rw [if_pos ht]
      by_cases hmem : a.storage ∈ gs.map (·.1)
      · have hkeys := addToGroups_keys_mem gs a.storage i hnd hmem
        rw [hstep, ih _ _ _ (by rw [hkeys]; exact hnd)]
        have hsnd : others ++ nonTensorIdxsFrom (i + 1) rest
            = others ++ nonTensorIdxsFrom i (a :: rest) := by
          rw [nonTensorIdxsFrom_cons]
          simp [ht]
        have hnews : newStoragesFrom (gs.map (·.1)) (a :: rest)
            = newStoragesFrom (gs.map (·.1)) rest := by
          rw [newStoragesFrom_cons, if_neg]
          rw [Bool.and_eq_true]
          rintro ⟨-, hbad⟩
          simp only [Bool.not_eq_true'] at hbad
          exact contains_false_not_mem hbad hmem
        have hleft : (addToGroups gs a.storage i).map
              (fun p => (p.1, p.2 ++ tensorIdxsFrom p.1 (i + 1) rest))
            = gs.map (fun p => (p.1, p.2 ++ tensorIdxsFrom p.1 i (a :: rest))) := by
          rw [addToGroups_mem gs a.storage i hnd hmem, List.map_map]
          apply List.map_congr_left
          intro p _
          by_cases hp : p.1 = a.storage
          · simp [Function.comp, hp, tensorIdxsFrom_cons, ht]
          · simp [Function.comp, hp, tensorIdxsFrom_cons, ht,
              show ¬(a.storage = p.1) from fun he => hp he.symm]
        have hright : (newStoragesFrom (gs.map (·.1)) rest).map
              (fun s => (s, tensorIdxsFrom s (i + 1) rest))
            = (newStoragesFrom (gs.map (·.1)) (a :: rest)).map
              (fun s => (s, tensorIdxsFrom s i (a :: rest))) := by
          rw [hnews]
          apply List.map_congr_left
          intro s hs
          have hne : a.storage ≠ s :=
            fun he => newStoragesFrom_not_mem rest (gs.map (·.1)) s hs (he ▸ hmem)
          simp [tensorIdxsFrom_cons, ht, hne]
        rw [hkeys, hsnd, hleft, hright]
      · have hfresh := addToGroups_not_mem gs a.storage i hmem
        have hkeys := addToGroups_keys_not_mem gs a.storage i hmem
        have hnd' : ((addToGroups gs a.storage i).map (·.1)).Nodup := by
          rw [hkeys]
          apply List.Nodup.append hnd (List.nodup_singleton _)
          intro x hx hx'
          rw [List.mem_singleton] at hx'
          exact hmem (hx' ▸ hx)
        rw [hstep, ih _ _ _ hnd']
        have hsnd : others ++ nonTensorIdxsFrom (i + 1) rest
            = others ++ nonTensorIdxsFrom i (a :: rest) := by
          rw [nonTensorIdxsFrom_cons]
          simp [ht]
        have hnews : newStoragesFrom (gs.map (·.1)) (a :: rest)
            = a.storage :: newStoragesFrom (gs.map (·.1) ++ [a.storage]) rest := by
          rw [newStoragesFrom_cons, if_pos]
          rw [Bool.and_eq_true]
          refine ⟨ht, ?_⟩
          simp only [Bool.not_eq_true']
          exact not_mem_contains_false hmem
        have hleft : (addToGroups gs a.storage i).map
              (fun p => (p.1, p.2 ++ tensorIdxsFrom p.1 (i + 1) rest))
            = gs.map (fun p => (p.1, p.2 ++ tensorIdxsFrom p.1 i (a :: rest)))
              ++ [(a.storage, [i] ++ tensorIdxsFrom a.storage (i + 1) rest)] := by
          rw [hfresh, List.map_append]
          congr 1
          · apply List.map_congr_left
            intro p hp
            have hne : a.storage ≠ p.1 :=
              fun he => hmem (he ▸ List.mem_map.mpr ⟨p, hp, rfl⟩)
            simp [tensorIdxsFrom_cons, ht, hne]
        have hright : (newStoragesFrom (gs.map (·.1) ++ [a.storage]) rest).map
              (fun s => (s, tensorIdxsFrom s (i + 1) rest))
            = (newStoragesFrom (gs.map (·.1) ++ [a.storage]) rest).map
              (fun s => (s, tensorIdxsFrom s i (a :: rest))) := by
          apply List.map_congr_left
          intro s hs
          have hne : a.storage ≠ s := by
            intro he
            apply newStoragesFrom_not_mem rest _ s hs
            exact List.mem_append.mpr (Or.inr (List.mem_singleton.mpr he.symm))
          simp [tensorIdxsFrom_cons, ht, hne]
        rw [hkeys, hsnd, hleft, hright, hnews]
        simp [List.map_cons, tensorIdxsFrom_cons, ht, List.append_assoc]
    · have hstep : storageGroupsGo gs others i (a :: rest)
          = storageGroupsGo gs (others ++ [i]) (i + 1) rest := by
        show (if a.is_tensor then
            storageGroupsGo (addToGroups gs a.storage i) others (i + 1) rest
          else storageGroupsGo gs (others ++ [i]) (i + 1) rest) = _
        rw [if_neg ht]
      rw [hstep, ih _ _ _ hnd]
      have hsnd : (others ++ [i]) ++ nonTensorIdxsFrom (i + 1) rest
          = others ++ nonTensorIdxsFrom i (a :: rest) := by
        rw [nonTensorIdxsFrom_cons]
        simp [ht]
      have hnews : newStoragesFrom (gs.map (·.1)) (a :: rest)
          = newStoragesFrom (gs.map (·.1)) rest := by
        rw [newStoragesFrom_cons, if_neg]
        rw [Bool.and_eq_true]
        rintro ⟨hbad, -⟩
        exact ht hbad
      have hleft : gs.map (fun p => (p.1, p.2 ++ tensorIdxsFrom p.1 (i + 1) rest))
          = gs.map (fun p => (p.1, p.2 ++ tensorIdxsFrom p.1 i (a :: rest))) := by
        apply List.map_congr_left
        intro p _
        simp [tensorIdxsFrom_cons, ht]
      have hright : (newStoragesFrom (gs.map (·.1)) rest).map
            (fun s => (s, tensorIdxsFrom s (i + 1) rest))
          = (newStoragesFrom (gs.map (·.1)) (a :: rest)).map
            (fun s => (s, tensorIdxsFrom s i (a :: rest))) := by
        rw [hnews]
        apply List.map_congr_left
        intro s _
        simp [tensorIdxsFrom_cons, ht]
      rw [hsnd, hleft, hright]

/-- The skip condition of the per-group loop, negated, is exactly "more
than one member and a data-mutated member". -/
lemma skip_negation (info : List InputAliasInfo) (idxs : List Nat) :
    (!(decide (idxs.length ≤ 1)
        || !(idxs.any fun i => (info.getD i default).mutates_data)))
      = (decide (1 < idxs.length)
          && idxs.any fun i => (info.getD i default).mutates_data) := by
  rw [Bool.not_or, Bool.not_not]
  congr 1
  rw [← decide_not]
  exact decide_eq_decide.mpr Nat.not_le

/-- The per-group loop, when it succeeds, appends one synthetic base per
group that has more than one member and a data-mutated member (in group
order), and appends the members of every other group to `other_args` (in
group order). -/
lemma mergeGroups_spec (args : List MArg) (info : List InputAliasInfo)
    (is_inference : Bool) :
    ∀ (G : List (Nat × List Nat)) (st stf : MergeState),
      mergeGroups args info is_inference G st = some stf →
      ∃ bases : List MergedArg,
        stf.base_args = st.base_args ++ bases
        ∧ List.Forall₂ (fun g b => chooseSyntheticBase args g.2 = some b)
            (G.filter fun g => decide (1 < g.2.length)
              && g.2.any fun i => (info.getD i default).mutates_data) bases
        ∧ stf.other_args = st.other_args
            ++ (G.filter fun g => !(decide (1 < g.2.length)
                && g.2.any fun i => (info.getD i default).mutates_data)).flatMap
              (·.2) := by
  intro G
  induction G with
  | nil =>
    intro st stf h
    injection h with h
    subst h
    exact ⟨[], by simp, by simp [List.Forall₂.nil], by simp⟩
  | cons g G ih =>
    intro st stf h
    have hmatch : ∀ st', mergeGroupStep args info is_inference st g = some st' →
        mergeGroups args info is_inference G st' = some stf := by
      intro st' hst'
      unfold mergeGroups at h
      rw [hst'] at h
      exact h
    have hne : mergeGroupStep args info is_inference st g ≠ none := by
      intro hbad
      unfold mergeGroups at h
      rw [hbad] at h
      cases h
    by_cases hskip : (decide (g.2.length ≤ 1)
        || !(g.2.any fun i => (info.getD i default).mutates_data)) = true
    · have hstep : mergeGroupStep args info is_inference st g
          = some { st with other_args := st.other_args ++ g.2 } := by
        unfold mergeGroupStep
        rw [if_pos hskip]
      obtain ⟨bases, hb, hf, ho⟩ := ih _ stf (hmatch _ hstep)
      have hneeds : (decide (1 < g.2.length)
          && g.2.any fun i => (info.getD i default).mutates_data) = false := by
        rw [← skip_negation info g.2, hskip]
        rfl
      refine ⟨bases, by simpa using hb, ?_, ?_⟩
      · rw [List.filter_cons_of_neg (by rw [hneeds]; exact Bool.false_ne_true)]
        exact hf
      · rw [List.filter_cons_of_pos (by rw [hneeds]; rfl)]
        rw [ho]
        simp [List.append_assoc]
    · have hchk : checkGroupPairs args is_inference (g.2.zip g.2.tail) = true := by
        by_contra hbad
        apply hne
        unfold mergeGroupStep
        rw [if_neg hskip, if_pos (by simpa using hbad)]
      cases hchoose : chooseSyntheticBase args g.2 with
      | none =>
        exfalso
        apply hne
        unfold mergeGroupStep
        rw [if_neg hskip, if_neg (by rw [hchk]; simp), hchoose]
      | some sb =>
        have hstep : mergeGroupStep args info is_inference st g
            = some { base_args := st.base_args ++ [sb]
                     other_args := st.other_args
                     meta := st.meta ++ g.2.map fun i =>
                       (i, SyntheticBaseEntry.viewOf st.base_args.length i) } := by
          unfold mergeGroupStep
          rw [if_neg hskip, if_neg (by rw [hchk]; simp), hchoose]
        obtain ⟨bases, hb, hf, ho⟩ := ih _ stf (hmatch _ hstep)
        have hneeds : (decide (1 < g.2.length)
            && g.2.any fun i => (info.getD i default).mutates_data) = true := by
          rw [← skip_negation info g.2, Bool.not_eq_true']
          exact Bool.not_eq_true _ ▸ hskip
        have hneg : ¬((!(decide (1 < g.2.length)
            && g.2.any fun i => (info.getD i default).mutates_data)) = true) := by
          rw [hneeds]
          simp
        have hfc : List.filter (fun q => decide (1 < q.2.length)
              && q.2.any fun i => (info.getD i default).mutates_data) (g :: G)
            = g :: List.filter (fun q => decide (1 < q.2.length)
              && q.2.any fun i => (info.getD i default).mutates_data) G :=
          List.filter_cons_of_pos hneeds
        have hfc2 : List.filter (fun q => !(decide (1 < q.2.length)
              && q.2.any fun i => (info.getD i default).mutates_data)) (g :: G)
            = List.filter (fun q => !(decide (1 < q.2.length)
              && q.2.any fun i => (info.getD i default).mutates_data)) G :=
          List.filter_cons_of_neg hneg
        refine ⟨sb :: bases, ?_, ?_, ?_⟩
        · rw [hb]
          simp
        · rw [hfc]
          exact List.Forall₂.cons hchoose hf
        · rw [hfc2]
          simpa using ho

/-! ### Lemmas about synthetic-base metadata -/

/-- The inner-position loop, when it succeeds, produces exactly one
`csbRecord` per processed inner position, in order. -/
lemma csbGo_infos (m : ViewAndMutationMeta Nat)
    (sbi : List SyntheticBaseEntry) :
    ∀ (l : List Nat) (infos : List InputAliasInfo) (rg : List Bool),
      csbGo m sbi l = some (infos, rg) → infos = l.map (csbRecord m sbi) := by
  intro l
  induction l with
  | nil =>
    intro infos rg h
    injection h with h
    injection h with h1 h2
    rw [← h1]
    rfl
  | cons inner_idx rest ih =>
    intro infos rg h
    simp only [csbGo] at h
    by_cases hleaf : ((outerIndicesOf sbi inner_idx).any fun x =>
          (m.input_info.getD x default).is_leaf)
        ≠ ((outerIndicesOf sbi inner_idx).all fun x =>
          (m.input_info.getD x default).is_leaf)
    · rw [if_pos hleaf] at h
      cases h
    · rw [if_neg hleaf] at h
      cases hrec : csbGo m sbi rest with
      | none => rw [hrec] at h; cases h
      | some p =>
        obtain ⟨infos', rg'⟩ := p
        rw [hrec] at h
        injection h with h
        injection h with h1 h2
        rw [← h1, List.map_cons, ih infos' rg' hrec]

/-- Indexing a map over `List.range`. -/
lemma range_map_getD {α : Type} (f : Nat → α) (n k : Nat) (d : α)
    (h : k < n) : ((List.range n).map f).getD k d = f k := by
  rw [List.getD_eq_getElem _ _ (by simpa using h)]
  simp

/-! ### Lemmas about deduplication -/

/-- The deduplicated count never decreases along the construction. -/
lemma buildDedupGo_le :
    ∀ (l : List Nat) (seen : List (Nat × Nat)) (j : Nat),
      j ≤ (buildDedupGo seen j l).2.2 := by
  intro l
  induction l with
  | nil => intro seen j; exact Nat.le_refl j
  | cons t rest ih =>
    intro seen j
    show j ≤ (match dictLookup seen t with
      | some k =>
        let r := buildDedupGo seen j rest
        (false :: r.1, k :: r.2.1, r.2.2)
      | none =>
        let r := buildDedupGo (seen ++ [(t, j)]) (j + 1) rest
        (true :: r.1, j :: r.2.1, r.2.2)).2.2
    cases dictLookup seen t with
    | some k => exact ih seen j
    | none => exact Nat.le_trans (Nat.le_succ j) (ih (seen ++ [(t, j)]) (j + 1))

/-- Appending one binding to a dict makes it the first consulted one. -/
lemma dictLookup_append_singleton :
    ∀ (ps : List (Nat × Nat)) (e : Nat × Nat) (k : Nat),
      dictLookup (ps ++ [e]) k
        = if e.1 = k then some e.2 else dictLookup ps k := by
  intro ps
  induction ps with
  | nil =>
    intro e k
    show (match dictLookup [] k with
      | some v => some v
      | none => if e.1 = k then some e.2 else none) = _
    by_cases he : e.1 = k <;> simp [he, dictLookup]
  | cons p ps ih =>
    intro e k
    show (match dictLookup (ps ++ [e]) k with
      | some v => some v
      | none => if p.1 = k then some p.2 else none) = _
    rw [ih e k]
    by_cases he : e.1 = k
    · simp [he]
    · rw [if_neg he, if_neg he]
      show (match dictLookup ps k with
        | some v => some v
        | none => if p.1 = k then some p.2 else none) = dictLookup (p :: ps) k
      rfl

/-- Generalized first round trip: removing duplicates from a re-expanded
list recovers the slice of fresh dedup slots. -/
lemma remove_add_round_trip_gen :
    ∀ (l : List Nat) (seen : List (Nat × Nat)) (j : Nat) (d : List Nat),
      (buildDedupGo seen j l).2.2 ≤ d.length →
      remove_dupe_args (buildDedupGo seen j l).1
          (add_dupe_args (buildDedupGo seen j l).2.1 d)
        = (d.drop j).take ((buildDedupGo seen j l).2.2 - j) := by
  intro l
  induction l with
  | nil =>
    intro seen j d _
    simp [buildDedupGo, remove_dupe_args, add_dupe_args]
  | cons t rest ih =>
    intro seen j d hlen
    cases hd : dictLookup seen t with
    | some k =>
      have hstep : buildDedupGo seen j (t :: rest)
          = (false :: (buildDedupGo seen j rest).1,
             k :: (buildDedupGo seen j rest).2.1,
             (buildDedupGo seen j rest).2.2) := by
        show (match dictLookup seen t with
          | some k =>
            let r := buildDedupGo seen j rest
            (false :: r.1, k :: r.2.1, r.2.2)
          | none =>
            let r := buildDedupGo (seen ++ [(t, j)]) (j + 1) rest
            (true :: r.1, j :: r.2.1, r.2.2)) = _
        rw [hd]
      rw [hstep] at hlen ⊢
      have := ih seen j d hlen
      rw [add_dupe_args, List.map_cons, remove_dupe_args, List.zip_cons_cons,
        List.filter_cons_of_neg (by simp)]
      exact this
    | none =>
      have hstep : buildDedupGo seen j (t :: rest)
          = (true :: (buildDedupGo (seen ++ [(t, j)]) (j + 1) rest).1,
             j :: (buildDedupGo (seen ++ [(t, j)]) (j + 1) rest).2.1,
             (buildDedupGo (seen ++ [(t, j)]) (j + 1) rest).2.2) := by
        show (match dictLookup seen t with
          | some k =>
            let r := buildDedupGo seen j rest
            (false :: r.1, k :: r.2.1, r.2.2)
          | none =>
            let r := buildDedupGo (seen ++ [(t, j)]) (j + 1) rest
            (true :: r.1, j :: r.2.1, r.2.2)) = _
        rw [hd]
      rw [hstep] at hlen ⊢
      have hju : j + 1 ≤ (buildDedupGo (seen ++ [(t, j)]) (j + 1) rest).2.2 :=
        buildDedupGo_le rest (seen ++ [(t, j)]) (j + 1)
      have hjd : j < d.length := Nat.lt_of_lt_of_le hju hlen
      have := ih (seen ++ [(t, j)]) (j + 1) d hlen
      rw [add_dupe_args, List.map_cons, remove_dupe_args, List.zip_cons_cons,
        List.filter_cons_of_pos (by simp), List.map_cons]
      show d.getD j 0 :: remove_dupe_args _ (add_dupe_args _ d) = _
      rw [this, List.drop_eq_getElem_cons hjd, List.getD_eq_getElem d 0 hjd]
      have harith : (buildDedupGo (seen ++ [(t, j)]) (j + 1) rest).2.2 - j
          = ((buildDedupGo (seen ++ [(t, j)]) (j + 1) rest).2.2 - (j + 1)) + 1 := by
        omega
      rw [harith, List.take_succ_cons]

/-- Generalized second round trip: re-expanding the deduplicated slice of
a pattern-consistent list recovers that list. -/
lemma add_remove_round_trip_gen :
    ∀ (l args' : List Nat) (seen : List (Nat × Nat)) (j : Nat) (P : List Nat),
      P.length = j →
      args'.length = l.length →
      (∀ v k, dictLookup seen v = some k →
        k < j ∧ ∀ p ∈ l.zip args', p.1 = v → p.2 = P.getD k 0) →
      (∀ p ∈ l.zip args', ∀ q ∈ l.zip args', p.1 = q.1 → p.2 = q.2) →
      add_dupe_args (buildDedupGo seen j l).2.1
          (P ++ remove_dupe_args (buildDedupGo seen j l).1 args')
        = args' := by
  intro l
  induction l with
  | nil =>
    intro args' seen j P _ hlen _ _
    rw [List.length_nil] at hlen
    rw [List.length_eq_zero] at hlen
    subst hlen
    simp [buildDedupGo, add_dupe_args]
  | cons t rest ih =>
    intro args' seen j P hP hlen hseen hdup
    cases args' with
    | nil => cases hlen
    | cons a args'' =>
      rw [List.length_cons, List.length_cons] at hlen
      have hlen' : args''.length = rest.length := Nat.succ_injective hlen
      cases hd : dictLookup seen t with
      | some k =>
        obtain ⟨hk, hval⟩ := hseen t k hd
        have ha : a = P.getD k 0 :=
          hval (t, a) (by rw [List.zip_cons_cons]; exact List.mem_cons_self _ _) rfl
        simp only [buildDedupGo, hd]
        show add_dupe_args (k :: (buildDedupGo seen j rest).2.1)
            (P ++ remove_dupe_args (false :: (buildDedupGo seen j rest).1)
              (a :: args'')) = a :: args''
        rw [remove_dupe_args, List.zip_cons_cons,
          List.filter_cons_of_neg (by simp)]
        rw [add_dupe_args, List.map_cons]
        have hhead : (P ++ ((args''.zip (buildDedupGo seen j rest).1).filter
            (·.2)).map (·.1)).getD k 0 = P.getD k 0 :=
          List.getD_append _ _ _ _ (by omega)
        rw [hhead, ← ha]
        congr 1
        exact ih args'' seen j P hP hlen'
          (fun v k' hvk' => ⟨(hseen v k' hvk').1,
            fun p hp => (hseen v k' hvk').2 p
              (by rw [List.zip_cons_cons]; exact List.mem_cons.mpr (Or.inr hp))⟩)
          (fun p hp q hq => hdup p
            (by rw [List.zip_cons_cons]; exact List.mem_cons.mpr (Or.inr hp)) q
            (by rw [List.zip_cons_cons]; exact List.mem_cons.mpr (Or.inr hq)))
      | none =>
        simp only [buildDedupGo, hd]
        show add_dupe_args (j :: (buildDedupGo (seen ++ [(t, j)]) (j + 1) rest).2.1)
            (P ++ remove_dupe_args
              (true :: (buildDedupGo (seen ++ [(t, j)]) (j + 1) rest).1)
              (a :: args'')) = a :: args''
        rw [remove_dupe_args, List.zip_cons_cons,
          List.filter_cons_of_pos (by simp), List.map_cons]
        rw [add_dupe_args, List.map_cons]
        have hP' : (P ++ [a]).length = j + 1 := by
          rw [List.length_append, hP]
          rfl
        have hassoc : P ++ a :: ((args''.zip
              ((buildDedupGo (seen ++ [(t, j)]) (j + 1) rest).1)).filter
              (·.2)).map (·.1)
            = (P ++ [a]) ++ ((args''.zip
              ((buildDedupGo (seen ++ [(t, j)]) (j + 1) rest).1)).filter
              (·.2)).map (·.1) := by
          rw [List.append_assoc]
          rfl
        have hhead : (P ++ a :: ((args''.zip
              ((buildDedupGo (seen ++ [(t, j)]) (j + 1) rest).1)).filter
              (·.2)).map (·.1)).getD j 0 = a := by
          rw [List.getD_append_right _ _ _ _ (by omega), hP]
          simp
        rw [hhead]
        congr 1
        rw [hassoc]
        apply ih args'' (seen ++ [(t, j)]) (j + 1) (P ++ [a]) hP' hlen'
        · intro v k' hvk'
          rw [dictLookup_append_singleton] at hvk'
          by_cases hv : t = v
          · rw [if_pos hv] at hvk'
            injection hvk' with hvk'
            subst hvk'
            refine ⟨Nat.lt_succ_self j, ?_⟩
            intro p hp hpv
            have := hdup p
              (by rw [List.zip_cons_cons]; exact List.mem_cons.mpr (Or.inr hp))
              (t, a)
              (by rw [List.zip_cons_cons]; exact List.mem_cons_self _ _)
              (by rw [hpv, hv])
            rw [this, List.getD_append_right _ _ _ _ (by omega), hP]
            simp
          · rw [if_neg hv] at hvk'
            obtain ⟨hk', hval⟩ := hseen v k' hvk'
            refine ⟨Nat.lt_succ_of_lt hk', ?_⟩
            intro p hp hpv
            rw [List.getD_append _ _ _ _ (by omega)]
            exact hval p
              (by rw [List.zip_cons_cons]; exact List.mem_cons.mpr (Or.inr hp)) hpv
        · intro p hp q hq
          exact hdup p
            (by rw [List.zip_cons_cons]; exact List.mem_cons.mpr (Or.inr hp)) q
            (by rw [List.zip_cons_cons]; exact List.mem_cons.mpr (Or.inr hq))

/-! ### Lemmas about the runtime epilogue -/

/-- A metadata-only mutation produces exactly an inference-path resize
(when storage sizes differ) followed by the in-place restride. -/
lemma applyInputMutation_metadata_only (trace_joint : Bool)
    (info : InputAliasInfo) (r : RuntimeMutInput) (steps : List MutStep)
    (hmm : info.mutates_metadata = true) (hmd : info.mutates_data = false)
    (h : applyInputMutation trace_joint info r = some steps) :
    steps = (if !trace_joint && r.orig_storage_size != r.upd_storage_size
          then [MutStep.resize r.upd_meta.size] else [])
        ++ [MutStep.restride r.upd_meta] := by
  by_cases hj : (trace_joint && !r.upd_is_tensor_alias) = true
  · simp [applyInputMutation, hmm, hmd, hj] at h
  · by_cases hr : (!trace_joint && r.orig_storage_size != r.upd_storage_size) = true
    · simp [applyInputMutation, hmm, hmd, hj, hr] at h ⊢
      exact h.symm
    · simp [applyInputMutation, hmm, hmd, hj, hr] at h ⊢
      exact h.symm

/-- A data mutation produces the inference-path resize (when storage
sizes differ), then a restride exactly when metadata is also mutated,
then the copy — through `detach()` exactly when the input is a leaf
whose original requires gradients. -/
lemma applyInputMutation_data (trace_joint : Bool)
    (info : InputAliasInfo) (r : RuntimeMutInput) (steps : List MutStep)
    (hmd : info.mutates_data = true)
    (h : applyInputMutation trace_joint info r = some steps) :
    steps = (if !trace_joint && r.orig_storage_size != r.upd_storage_size
          then [MutStep.resize r.upd_meta.size] else [])
        ++ (if info.mutates_metadata then [MutStep.restride r.upd_meta]
            else [])
        ++ [if info.is_leaf && r.orig_requires_grad
            then MutStep.copyFromDetached r.upd_value
            else MutStep.copyFrom r.upd_value] := by
  by_cases hmm : info.mutates_metadata = true
  · by_cases hr : (!trace_joint && r.orig_storage_size != r.upd_storage_size) = true
    · simp [applyInputMutation, hmd, hmm, hr] at h ⊢
      exact h.symm
    · simp [applyInputMutation, hmd, hmm, hr] at h ⊢
      exact h.symm
  · by_cases hr : (!trace_joint && r.orig_storage_size != r.upd_storage_size) = true
    · simp [applyInputMutation, hmd, hmm, hr] at h ⊢
      exact h.symm
    · simp [applyInputMutation, hmd, hmm, hr] at h ⊢
      exact h.symm

/-! ### Lemmas about the functional-graph assertion -/

/-- Positive membership-to-`contains` direction for `Nat` lists. -/
lemma mem_contains_true {l : List Nat} {x : Nat} (h : x ∈ l) :
    l.contains x = true :=
  show List.elem x l = true from List.elem_iff.mpr h

/-- One unfolding step of the checker loop, with the placeholder update
written out. -/
lemma assertFunctionalGraphGo_cons (allow : Bool) (n : FxNode)
    (rest : List FxNode) (placeholders : List Nat) (c : Nat) :
    assertFunctionalGraphGo allow (n :: rest) placeholders c
      = (if n.target = FxTarget.notOp then
          assertFunctionalGraphGo allow rest
            (if n.is_placeholder then placeholders ++ [n.nid]
              else placeholders) c
        else if nodeIsCopy n && allow then
          (match n.args with
           | [] => none
           | a :: _ =>
             if (if n.is_placeholder then placeholders ++ [n.nid]
                  else placeholders).contains a then
               assertFunctionalGraphGo allow rest
                 ((if n.is_placeholder then placeholders ++ [n.nid]
                    else placeholders).erase a) (c + 1)
             else none)
        else if nodeMutable n then none
        else assertFunctionalGraphGo allow rest
          (if n.is_placeholder then placeholders ++ [n.nid]
            else placeholders) c) := rfl

/-- Peeling one node off the claim-side mutable-node condition: the head
node's base must come from `avail`, and the tail condition runs with the
head's placeholder identity (if any) made available. -/
lemma mutableNodesOK_cons (allow : Bool) (avail avail' : List Nat)
    (n : FxNode) (rest : List FxNode)
    (hav : avail' = if n.is_placeholder then avail ++ [n.nid] else avail) :
    MutableNodesOK allow avail (n :: rest) ↔
      ((nodeMutable n = true → allow = true ∧ nodeIsCopy n = true
          ∧ ∃ a, n.args.head? = some a ∧ a ∈ avail)
        ∧ MutableNodesOK allow avail' rest) := by
  constructor
  · intro h
    refine ⟨fun hm => ?_, ?_⟩
    · obtain ⟨ha, hc, a, hhead, hmem⟩ := h [] n rest rfl hm
      refine ⟨ha, hc, a, hhead, ?_⟩
      rcases hmem with hmem | ⟨p, hp, _, _⟩
      · exact hmem
      · simp at hp
    · intro pre x post hx hm
      obtain ⟨ha, hc, a, hhead, hmem⟩ :=
        h (n :: pre) x post (by simp [hx]) hm
      refine ⟨ha, hc, a, hhead, ?_⟩
      rcases hmem with hmem | ⟨p, hp, hph, hpn⟩
      · left
        by_cases hnp : n.is_placeholder = true
        · rw [hav, if_pos hnp]
          exact List.mem_append_left _ hmem
        · rw [hav, if_neg hnp]
          exact hmem
      · rcases List.mem_cons.mp hp with rfl | hp'
        · by_cases hnp : p.is_placeholder = true
          · left
            rw [hav, if_pos hnp, ← hpn]
            exact List.mem_append_right _ (by simp)
          · exact absurd hph hnp
        · exact Or.inr ⟨p, hp', hph, hpn⟩
  · rintro ⟨hhd, htl⟩ pre x post hx hm
    cases pre with
    | nil =>
      simp only [List.nil_append, List.cons.injEq] at hx
      obtain ⟨rfl, rfl⟩ := hx
      obtain ⟨ha, hc, a, hhead, hmem⟩ := hhd hm
      exact ⟨ha, hc, a, hhead, Or.inl hmem⟩
    | cons q pre' =>
      simp only [List.cons_append, List.cons.injEq] at hx
      obtain ⟨rfl, hx'⟩ := hx
      obtain ⟨ha, hc, a, hhead, hmem⟩ := htl pre' x post hx' hm
      refine ⟨ha, hc, a, hhead, ?_⟩
      rcases hmem with hmem | ⟨p, hp, hph, hpn⟩
      · by_cases hnp : n.is_placeholder = true
        · rw [hav, if_pos hnp] at hmem
          rcases List.mem_append.mp hmem with hmem | hmem
          · exact Or.inl hmem
          · refine Or.inr ⟨n, List.mem_cons_self n pre', hnp, ?_⟩
            have hna : a = n.nid := by simpa using hmem
            exact hna.symm
        · rw [hav, if_neg hnp] at hmem
          exact Or.inl hmem
      · exact Or.inr ⟨p, List.mem_cons_of_mem n hp, hph, hpn⟩

/-- Peeling one node off the claim-side distinct-copy-target condition. -/
lemma copyTargetsDistinct_cons (n : FxNode) (rest : List FxNode) :
    CopyTargetsDistinct (n :: rest) ↔
      ((nodeIsCopy n = true →
          ∀ x ∈ rest, nodeIsCopy x = true → n.args.head? ≠ x.args.head?)
        ∧ CopyTargetsDistinct rest) := by
  unfold CopyTargetsDistinct
  by_cases hc : nodeIsCopy n = true
  · have hfc : List.filter nodeIsCopy (n :: rest)
        = n :: List.filter nodeIsCopy rest :=
      List.filter_cons_of_pos hc
    rw [hfc, List.pairwise_cons]
    constructor
    · rintro ⟨h1, h2⟩
      exact ⟨fun _ x hx hxc => h1 x (List.mem_filter.mpr ⟨hx, hxc⟩), h2⟩
    · rintro ⟨h1, h2⟩
      refine ⟨fun x hx => ?_, h2⟩
      obtain ⟨hx', hxc⟩ := List.mem_filter.mp hx
      exact h1 hc x hx' hxc
  · have hfc : List.filter nodeIsCopy (n :: rest)
        = List.filter nodeIsCopy rest :=
      List.filter_cons_of_neg (by simpa using hc)
    rw [hfc]
    constructor
    · intro h
      exact ⟨fun hcc => absurd hcc hc, h⟩
    · rintro ⟨_, h⟩
      exact h

/-- The main correspondence for `assert_functional_graph`: the checker
loop succeeds from a given placeholder state exactly when the claim-side
condition holds, assuming graph well-formedness and that the carried
state is duplicate-free and disjoint from the upcoming placeholders. -/
lemma assertFunctionalGraphGo_iff (allow : Bool) (nodes : List FxNode) :
    ∀ (avail : List Nat) (c : Nat),
      (∀ n ∈ nodes, nodeIsCopy n = true → nodeMutable n = true) →
      (∀ n ∈ nodes, n.is_placeholder = true → n.target = FxTarget.notOp) →
      ((nodes.filter (fun x => x.is_placeholder)).map (fun x => x.nid)).Nodup →
      avail.Nodup →
      (∀ n ∈ nodes, n.is_placeholder = true → n.nid ∉ avail) →
      ((assertFunctionalGraphGo allow nodes avail c).isSome = true ↔
        (MutableNodesOK allow avail nodes ∧ CopyTargetsDistinct nodes)) := by
  induction nodes with
  | nil =>
    intro avail c _ _ _ _ _
    constructor
    · intro _
      constructor
      · intro pre x post hx _
        cases pre <;> simp at hx
      · simp [CopyTargetsDistinct]
    · intro _
      simp [assertFunctionalGraphGo]
  | cons n rest ih =>
    intro avail c w1 w2 w3 w4 w5
    have w1' : ∀ x ∈ rest, nodeIsCopy x = true → nodeMutable x = true :=
      fun x hx => w1 x (List.mem_cons_of_mem n hx)
    have w2' : ∀ x ∈ rest, x.is_placeholder = true → x.target = FxTarget.notOp :=
      fun x hx => w2 x (List.mem_cons_of_mem n hx)
    by_cases hpl : n.is_placeholder = true
    · -- placeholder node: by well-formedness its target is not an operator
      have hto : n.target = FxTarget.notOp := w2 n (List.mem_cons_self n rest) hpl
      have hcopy : nodeIsCopy n = false := by simp [nodeIsCopy, hto]
      have hmut : nodeMutable n = false := by simp [nodeMutable, hto]
      have hfc : List.filter (fun x => x.is_placeholder) (n :: rest)
          = n :: List.filter (fun x => x.is_placeholder) rest :=
        List.filter_cons_of_pos hpl
      rw [hfc, List.map_cons, List.nodup_cons] at w3
      obtain ⟨hnin, w3'⟩ := w3
      have hnav : n.nid ∉ avail := w5 n (List.mem_cons_self n rest) hpl
      have w4' : (avail ++ [n.nid]).Nodup := by
        rw [List.nodup_append]
        refine ⟨w4, List.nodup_singleton _, ?_⟩
        intro a ha hb
        rw [List.mem_singleton] at hb
        subst hb
        exact hnav ha
      have w5' : ∀ x ∈ rest, x.is_placeholder = true →
          x.nid ∉ avail ++ [n.nid] := by
        intro x hx hxp hmem
        rcases List.mem_append.mp hmem with h | h
        · exact w5 x (List.mem_cons_of_mem n hx) hxp h
        · have hx2 : x.nid ∈ (List.filter (fun y => y.is_placeholder) rest).map
              (fun y => y.nid) :=
            List.mem_map.mpr ⟨x, List.mem_filter.mpr ⟨hx, hxp⟩, rfl⟩
          have hxe : x.nid = n.nid := by simpa using h
          exact hnin (hxe ▸ hx2)
      have hstep : assertFunctionalGraphGo allow (n :: rest) avail c
          = assertFunctionalGraphGo allow rest (avail ++ [n.nid]) c := by
        rw [assertFunctionalGraphGo_cons]
        simp [hto, hpl]
      rw [hstep, ih (avail ++ [n.nid]) c w1' w2' w3' w4' w5',
        mutableNodesOK_cons allow avail (avail ++ [n.nid]) n rest
          (by rw [if_pos hpl]),
        copyTargetsDistinct_cons]
      constructor
      · rintro ⟨hm, hc⟩
        exact ⟨⟨fun hmm => absurd hmm (by simp [hmut]), hm⟩,
          ⟨fun hcc => absurd hcc (by simp [hcopy]), hc⟩⟩
      · rintro ⟨⟨_, hm⟩, ⟨_, hc⟩⟩
        exact ⟨hm, hc⟩
    · -- non-placeholder node
      have hfc : List.filter (fun x => x.is_placeholder) (n :: rest)
          = List.filter (fun x => x.is_placeholder) rest :=
        List.filter_cons_of_neg (by simpa using hpl)
      rw [hfc] at w3
      have w5' : ∀ x ∈ rest, x.is_placeholder = true → x.nid ∉ avail :=
        fun x hx => w5 x (List.mem_cons_of_mem n hx)
      have hmok := mutableNodesOK_cons allow avail avail n rest
        (by rw [if_neg hpl])
      cases htg : n.target with
      | notOp =>
        have hcopy : nodeIsCopy n = false := by simp [nodeIsCopy, htg]
        have hmut : nodeMutable n = false := by simp [nodeMutable, htg]
        have hstep : assertFunctionalGraphGo allow (n :: rest) avail c
            = assertFunctionalGraphGo allow rest avail c := by
          rw [assertFunctionalGraphGo_cons]
          simp [htg, hpl]
        rw [hstep, ih avail c w1' w2' w3 w4 w5', hmok, copyTargetsDistinct_cons]
        constructor
        · rintro ⟨hm, hc⟩
          exact ⟨⟨fun hmm => absurd hmm (by simp [hmut]), hm⟩,
            ⟨fun hcc => absurd hcc (by simp [hcopy]), hc⟩⟩
        · rintro ⟨⟨_, hm⟩, ⟨_, hc⟩⟩
          exact ⟨hm, hc⟩
      | op ic mu =>
        have hic : nodeIsCopy n = ic := by simp [nodeIsCopy, htg]
        have hmu : nodeMutable n = mu := by simp [nodeMutable, htg]
        have htne : ¬(n.target = FxTarget.notOp) := by simp [htg]
        by_cases hca : (ic && allow) = true
        · obtain ⟨hict, hal⟩ := Bool.and_eq_true_iff.mp hca
          have hct : nodeIsCopy n = true := by rw [hic]; exact hict
          have hmut : nodeMutable n = true := w1 n (List.mem_cons_self n rest) hct
          cases hargs : n.args with
          | nil =>
            have hstep : assertFunctionalGraphGo allow (n :: rest) avail c
                = none := by
              rw [assertFunctionalGraphGo_cons]
              simp [htne, hct, hal, hargs]
            constructor
            · intro habs
              rw [hstep] at habs
              simp at habs
            · rintro ⟨hm, _⟩
              obtain ⟨_, _, a, hhead, _⟩ := hm [] n rest rfl hmut
              rw [hargs] at hhead
              simp at hhead
          | cons a as =>
            by_cases hmem : a ∈ avail
            · have hcont : avail.contains a = true := mem_contains_true hmem
              have hstep : assertFunctionalGraphGo allow (n :: rest) avail c
                  = assertFunctionalGraphGo allow rest (avail.erase a) (c + 1) := by
                rw [assertFunctionalGraphGo_cons]
                simp [htne, hct, hal, hargs, hpl, hcont, hmem]
              have w4' : (avail.erase a).Nodup := w4.erase a
              have w5'' : ∀ x ∈ rest, x.is_placeholder = true →
                  x.nid ∉ avail.erase a :=
                fun x hx hxp hmm => w5' x hx hxp (List.mem_of_mem_erase hmm)
              rw [hstep, ih (avail.erase a) (c + 1) w1' w2' w3 w4' w5'',
                hmok, copyTargetsDistinct_cons]
              have hhd : n.args.head? = some a := by rw [hargs]; rfl
              constructor
              · rintro ⟨hm, hc⟩
                have hdist : ∀ x ∈ rest, nodeIsCopy x = true →
                    n.args.head? ≠ x.args.head? := by
                  intro x hx hxc heq
                  have hhx : x.args.head? = some a := by rw [← heq, hhd]
                  have hxm : nodeMutable x = true := w1' x hx hxc
                  obtain ⟨s, t, hst⟩ := List.append_of_mem hx
                  obtain ⟨_, _, a2, hhead2, hmem2⟩ := hm s x t hst hxm
                  rw [hhx] at hhead2
                  have ha2 : a2 = a := by injection hhead2 with h; exact h.symm
                  subst ha2
                  rcases hmem2 with h2 | ⟨p, hp, hpp, hpn⟩
                  · exact ((List.Nodup.mem_erase_iff w4).mp h2).1 rfl
                  · have hpr : p ∈ rest := by
                      rw [hst]
                      exact List.mem_append_left _ hp
                    exact w5' p hpr hpp (hpn ▸ hmem)
                refine ⟨⟨fun _ => ⟨hal, hct, a, hhd, hmem⟩, ?_⟩,
                  ⟨fun _ => hdist, hc⟩⟩
                intro pre x post hx hxm
                obtain ⟨h1, h2, a2, h3, h4⟩ := hm pre x post hx hxm
                refine ⟨h1, h2, a2, h3, ?_⟩
                rcases h4 with h4 | h4
                · exact Or.inl (List.mem_of_mem_erase h4)
                · exact Or.inr h4
              · rintro ⟨⟨_, hmr⟩, ⟨hhc, hc⟩⟩
                refine ⟨?_, hc⟩
                intro pre x post hx hxm
                obtain ⟨h1, h2, a2, h3, h4⟩ := hmr pre x post hx hxm
                refine ⟨h1, h2, a2, h3, ?_⟩
                rcases h4 with h4 | h4
                · left
                  have hxr : x ∈ rest := by
                    rw [hx]
                    exact List.mem_append_right _ (List.mem_cons_self x post)
                  have hne : a2 ≠ a := by
                    intro heqa
                    apply hhc hct x hxr h2
                    rw [hhd, h3, heqa]
                  exact (List.mem_erase_of_ne hne).mpr h4
                · exact Or.inr h4
            · have hcont : avail.contains a = false := by
                rcases hcf : avail.contains a with _ | _
                · rfl
                · exact absurd (List.elem_iff.mp hcf) hmem
              have hstep : assertFunctionalGraphGo allow (n :: rest) avail c
                  = none := by
                rw [assertFunctionalGraphGo_cons]
                simp [htne, hct, hal, hargs, hpl, hcont, hmem]
              constructor
              · intro habs
                rw [hstep] at habs
                simp at habs
              · rintro ⟨hm, _⟩
                obtain ⟨_, _, a2, h3, h4⟩ := hm [] n rest rfl hmut
                rw [hargs] at h3
                have ha2 : a2 = a := by
                  simp only [List.head?_cons, Option.some.injEq] at h3
                  exact h3.symm
                subst ha2
                rcases h4 with h4 | ⟨p, hp, _, _⟩
                · exact absurd h4 hmem
                · simp at hp
        · have hcan : (nodeIsCopy n && allow) = false := by
            rw [hic]
            exact Bool.not_eq_true _ ▸ hca
          by_cases hmu2 : nodeMutable n = true
          · have hstep : assertFunctionalGraphGo allow (n :: rest) avail c
                = none := by
              rw [assertFunctionalGraphGo_cons]
              simp [htne, hcan, hmu2]
            constructor
            · intro habs
              rw [hstep] at habs
              simp at habs
            · rintro ⟨hm, _⟩
              obtain ⟨hal, hcp, _⟩ := hm [] n rest rfl hmu2
              rw [hic] at hcp
              rw [hcp, hal] at hca
              exact (hca rfl).elim
          · have hcopy : nodeIsCopy n = false := by
              rcases hcf : nodeIsCopy n with _ | _
              · rfl
              · exact absurd (w1 n (List.mem_cons_self n rest) hcf) hmu2
            have hstep : assertFunctionalGraphGo allow (n :: rest) avail c
                = assertFunctionalGraphGo allow rest avail c := by
              rw [assertFunctionalGraphGo_cons]
              simp [htne, hcan, hmu2, hpl]
            rw [hstep, ih avail c w1' w2' w3 w4 w5', hmok,
              copyTargetsDistinct_cons]
            constructor
            · rintro ⟨hm, hc⟩
              exact ⟨⟨fun hmm => absurd hmm hmu2, hm⟩,
                ⟨fun hcc => absurd hcc (by simp [hcopy]), hc⟩⟩
            · rintro ⟨⟨_, hm⟩, ⟨_, hc⟩⟩
              exact ⟨hm, hc⟩

/-! ### Theorems for the claims -/

/-- C1 (amended): in every `OutputAliasInfo` produced by
`run_functionalized_fw_and_collect_metadata`, `base_idx` is present iff
`output_type` is neither `NonAlias` nor `UnsafeViewAlias`.  (As stated, the
claim fails for `UnsafeViewAlias`, see the counterexample.) -/
theorem C1_base_idx_invariant (keep : Bool) (args : List FArg)
    (outs : List FOut) :
    ∀ info ∈ (runCollectMetadata keep args outs).output_info,
      (info.base_idx.isSome = true ↔
        (info.output_type ≠ OutputType.non_alias
          ∧ info.output_type ≠ OutputType.uv_alias)) := by
  intro info hinfo
  exact classify_foldl_base_idx args outs outs ⟨[], [], []⟩ (by intro r hr; cases hr)
    info hinfo

/-- Witness for C1: a concrete run whose single output is an alias of an
input, carrying `base_idx = some 0`. -/
theorem C1_base_idx_invariant_witness :
    (⟨OutputType.is_input, true, some 0⟩ : OutputAliasInfo) ∈
        (runCollectMetadata false [⟨true, 3, 9, false, true, .unchanged⟩]
          [⟨true, 3, 9, true, none⟩]).output_info
      ∧ ((some 0 : Option Nat).isSome = true ↔
          (OutputType.is_input ≠ OutputType.non_alias
            ∧ OutputType.is_input ≠ OutputType.uv_alias)) :=
  ⟨by decide,
    C1_base_idx_invariant false [⟨true, 3, 9, false, true, .unchanged⟩]
      [⟨true, 3, 9, true, none⟩] ⟨OutputType.is_input, true, some 0⟩ (by decide)⟩

/-- Counterexample to C1 as stated: an output that is a view of a graph
intermediate whose storage no other output references is classified with
the unsafe-view-alias output type (which is not `NonAlias`) and yet carries
`base_idx = none`. -/
theorem C1_counterexample :
    (runCollectMetadata false [] [⟨true, 5, 7, true, some ⟨6, true⟩⟩]).output_info
        = [⟨OutputType.uv_alias, true, none⟩]
      ∧ ¬((none : Option Nat).isSome = true ↔
          OutputType.uv_alias ≠ OutputType.non_alias) := by
  constructor
  · decide
  · decide

/-- C2 (amended): under well-formedness of the analyzed instance (distinct
tensor-input storages, coherent python ids), the output classification
performed by the metadata analyzer is exactly the claim's three ordered
checks, with the one amendment its counterexample forces: in check (2) the
base of an intermediate alias is resolved against all user outputs, not
only the already-seen ones.  The intermediate-base lists agree as well. -/
theorem C2_output_classification (args : List FArg) (outs : List FOut)
    (h : AnalyzerWF args outs) :
    (collectOutputInfo args outs).output_info
        = (specClassifyOutputs args outs).output_info
      ∧ (collectOutputInfo args outs).intermediate_bases
        = (specClassifyOutputs args outs).seen_bases :=
  classify_foldl_agrees args outs h outs (fun _ hx => hx) ⟨[], [], []⟩ ⟨[], []⟩
    rfl rfl rfl (by simp)

/-- Witness for C2: a well-formed instance with one input returned as an
output plus one fresh output, on which source and claim classifications
coincide. -/
theorem C2_output_classification_witness :
    AnalyzerWF [⟨true, 3, 9, false, true, .unchanged⟩]
        [⟨true, 3, 9, true, none⟩, ⟨true, 4, 10, true, none⟩]
      ∧ (collectOutputInfo [⟨true, 3, 9, false, true, .unchanged⟩]
          [⟨true, 3, 9, true, none⟩, ⟨true, 4, 10, true, none⟩]).output_info
        = (specClassifyOutputs [⟨true, 3, 9, false, true, .unchanged⟩]
          [⟨true, 3, 9, true, none⟩, ⟨true, 4, 10, true, none⟩]).output_info :=
  ⟨by decide, (C2_output_classification _ _ (by decide)).1⟩

/-- Counterexample to C2 as stated: an output whose `._base` is a *later*
user output.  The source resolves the base against `out_tensor_ids`, which
covers all outputs, and classifies it as alias-of-intermediate-that-is-
also-user-output with base index 1; the claim's "already-seen user
outputs" instead demands a fresh intermediate-base slot. -/
theorem C2_counterexample :
    (collectOutputInfo []
        [⟨true, 0, 5, true, some ⟨1, true⟩⟩, ⟨true, 1, 5, true, none⟩]).output_info
        = [⟨OutputType.alias_of_intermediate_base_is_user_output, true, some 1⟩,
           ⟨OutputType.non_alias, true, none⟩]
      ∧ (specClassifyOrigOutputs []
          [⟨true, 0, 5, true, some ⟨1, true⟩⟩, ⟨true, 1, 5, true, none⟩]).output_info
        = [⟨OutputType.alias_of_intermediate_save_as_output, true, some 0⟩,
           ⟨OutputType.non_alias, true, none⟩]
      ∧ AnalyzerWF [] [⟨true, 0, 5, true, some ⟨1, true⟩⟩, ⟨true, 1, 5, true, none⟩]
      ∧ (collectOutputInfo []
          [⟨true, 0, 5, true, some ⟨1, true⟩⟩, ⟨true, 1, 5, true, none⟩]).output_info
        ≠ (specClassifyOrigOutputs []
          [⟨true, 0, 5, true, some ⟨1, true⟩⟩, ⟨true, 1, 5, true, none⟩]).output_info :=
  ⟨by decide, by decide, by decide, by decide⟩

/-- C6: when `create_synthetic_base_metadata` succeeds, (a) every inner
position that is a merged base (more than one outer argument maps to it)
gets `InputAliasInfo` with `mutates_data = true` and
`mutates_metadata = false`; (b) the new `output_info` is the remapped
pre-merge outputs followed by one extra `AliasOfInput` synthetic output per
outer aliased argument with a metadata mutation, pointing at that
argument's merged base; (c) the returned index list is exactly those
outer arguments. -/
theorem C6_synthetic_base_metadata (m : ViewAndMutationMeta Nat)
    (sbi : List SyntheticBaseEntry) (outer_rg : List Bool)
    (inner_args : List Nat) (res : ViewAndMutationMeta Nat)
    (aliased : List Nat)
    (h : create_synthetic_base_metadata m sbi outer_rg inner_args
      = some (res, aliased)) :
    (∀ inner_idx, inner_idx < inner_args.length →
        1 < (outerIndicesOf sbi inner_idx).length →
        (res.input_info.getD inner_idx default).mutates_data = true
          ∧ (res.input_info.getD inner_idx default).mutates_metadata = false)
      ∧ res.output_info = m.output_info.map (remapOutputInfo sbi)
          ++ (outerAliasedMetadataMutatedIndices m sbi).map (fun oi =>
            OutputAliasInfo.mk OutputType.alias_of_input true
              (some (sbEntryBaseIdx (sbi.getD oi (.direct 0)))))
      ∧ aliased = outerAliasedMetadataMutatedIndices m sbi := by
  unfold create_synthetic_base_metadata at h
  cases hrec : csbGo m sbi (List.range inner_args.length) with
  | none => rw [hrec] at h; cases h
  | some p =>
    obtain ⟨infos, rg⟩ := p
    rw [hrec] at h
    injection h with h
    injection h with h1 h2
    have hinfos : infos = (List.range inner_args.length).map (csbRecord m sbi) :=
      csbGo_infos m sbi _ infos rg hrec
    refine ⟨?_, ?_, h2.symm⟩
    · intro inner_idx hlt hgt
      have hproj : res.input_info = infos := by rw [← h1]
      rw [hproj, hinfos, range_map_getD _ _ _ _ hlt]
      constructor
      · show (if 1 < (outerIndicesOf sbi inner_idx).length then true
            else (m.input_info.getD
              ((outerIndicesOf sbi inner_idx).headD 0) default).mutates_data) = true
        rw [if_pos hgt]
      · show (if 1 < (outerIndicesOf sbi inner_idx).length then false
            else (m.input_info.getD
              ((outerIndicesOf sbi inner_idx).headD 0) default).mutates_metadata)
          = false
        rw [if_pos hgt]
    · rw [← h1]

/-- Witness for C6: two aliased outer views of one merged base, the first
data-mutated and the second metadata-mutated. -/
theorem C6_synthetic_base_metadata_witness :
    create_synthetic_base_metadata
        { input_info := [⟨false, true, false⟩, ⟨false, false, true⟩]
          output_info := []
          requires_grad_info := [true, true]
          num_intermediate_bases := 0
          keep_input_mutations := false
          traced_tangents := [7] }
        [.viewOf 0 5, .viewOf 0 6] [true, true] [100]
      = some
        ({ input_info := [⟨false, true, false⟩]
           output_info := [⟨OutputType.alias_of_input, true, some 0⟩]
           requires_grad_info := [true, true]
           num_intermediate_bases := 0
           keep_input_mutations := false
           traced_tangents := [100] },
         [1])
      ∧ (∀ inner_idx, inner_idx < ([100] : List Nat).length →
          1 < (outerIndicesOf [.viewOf 0 5, .viewOf 0 6] inner_idx).length →
          ((({ input_info := [⟨false, true, false⟩]
               output_info := [⟨OutputType.alias_of_input, true, some 0⟩]
               requires_grad_info := [true, true]
               num_intermediate_bases := 0
               keep_input_mutations := false
               traced_tangents := [100] } : ViewAndMutationMeta Nat)).input_info.getD
              inner_idx default).mutates_data = true) :=
  ⟨by decide,
    fun inner_idx hlt hgt =>
      ((C6_synthetic_base_metadata
        { input_info := [⟨false, true, false⟩, ⟨false, false, true⟩]
          output_info := []
          requires_grad_info := [true, true]
          num_intermediate_bases := 0
          keep_input_mutations := false
          traced_tangents := [7] }
        [.viewOf 0 5, .viewOf 0 6] [true, true] [100]
        { input_info := [⟨false, true, false⟩]
          output_info := [⟨OutputType.alias_of_input, true, some 0⟩]
          requires_grad_info := [true, true]
          num_intermediate_bases := 0
          keep_input_mutations := false
          traced_tangents := [100] }
        [1] (by decide)).1 inner_idx hlt hgt).1⟩

/-- C7: the deduplication round-trip laws.  `remove_dupe_args ∘
add_dupe_args` is the identity on lists of the deduplicated length, and
`add_dupe_args ∘ remove_dupe_args` is the identity on every argument list
exhibiting the duplication pattern of `flat_args` (equal entries of
`flat_args` carry equal entries of the list). -/
theorem C7_dedupe_round_trip (flat_args : List Nat) :
    (∀ d : List Nat, d.length = (buildDedup flat_args).2.2 →
      remove_dupe_args (buildDedup flat_args).1
          (add_dupe_args (buildDedup flat_args).2.1 d) = d)
    ∧ ∀ args' : List Nat, args'.length = flat_args.length →
      (∀ p ∈ flat_args.zip args', ∀ q ∈ flat_args.zip args',
        p.1 = q.1 → p.2 = q.2) →
      add_dupe_args (buildDedup flat_args).2.1
          (remove_dupe_args (buildDedup flat_args).1 args') = args' := by
  constructor
  · intro d hd
    rw [buildDedup] at hd ⊢
    have h := remove_add_round_trip_gen flat_args [] 0 d (Nat.le_of_eq hd.symm)
    rw [List.drop_zero, Nat.sub_zero, ← hd, List.take_length] at h
    exact h
  · intro args' hlen hdup
    rw [buildDedup]
    have h := add_remove_round_trip_gen flat_args args' [] 0 [] rfl hlen
      (fun v k hvk => by simp [dictLookup] at hvk) hdup
    simpa using h

/-- Witness for C7: the pattern `[5, 7, 5, 9]` with deduplicated values
`[50, 70, 90]` and a pattern-matching argument list `[1, 2, 1, 3]`. -/
theorem C7_dedupe_round_trip_witness :
    remove_dupe_args (buildDedup [5, 7, 5, 9]).1
        (add_dupe_args (buildDedup [5, 7, 5, 9]).2.1 [50, 70, 90])
      = [50, 70, 90]
    ∧ add_dupe_args (buildDedup [5, 7, 5, 9]).2.1
        (remove_dupe_args (buildDedup [5, 7, 5, 9]).1 [1, 2, 1, 3])
      = [1, 2, 1, 3] :=
  ⟨(C7_dedupe_round_trip [5, 7, 5, 9]).1 [50, 70, 90] (by decide),
   (C7_dedupe_round_trip [5, 7, 5, 9]).2 [1, 2, 1, 3] (by decide) (by decide)⟩

/-- C5 (amended): whenever `merge_view_inputs` creates at least one
synthetic base, the returned argument list is all base arguments followed
by the remaining arguments, with base A before base B iff the earliest
member of A's group came first (the bases are listed per storage in
first-occurrence order); the remaining arguments, however, do not keep
their original relative order (see the counterexample): the non-tensor
arguments come first in original order, then the tensor arguments of the
non-merged groups, grouped by storage with groups in first-occurrence
order and members in original order. -/
theorem C5_merge_ordering (args : List MArg) (info : List InputAliasInfo)
    (is_inference : Bool) (l : List MergedArg) (m : List SyntheticBaseEntry)
    (h : merge_view_inputs args info is_inference = some (l, some m)) :
    ∃ bases : List MergedArg,
      bases ≠ []
      ∧ l = bases ++ (amendedC5Others args info).map MergedArg.orig
      ∧ List.Forall₂ (fun s b =>
          chooseSyntheticBase args (tensorIdxsFrom s 0 args) = some b)
        (basedStorages args info) bases := by
  have hscan : storageGroupsGo [] [] 0 args
      = ((newStoragesFrom [] args).map fun s => (s, tensorIdxsFrom s 0 args),
         nonTensorIdxsFrom 0 args) := by
    rw [storageGroupsGo_spec args [] [] 0 (by simp)]
    simp
  unfold merge_view_inputs at h
  by_cases hlen : args.length ≠ info.length
  · rw [if_pos hlen] at h
    cases h
  · rw [if_neg hlen] at h
    simp only [hscan] at h
    cases hmg : mergeGroups args info is_inference
        ((newStoragesFrom [] args).map fun s => (s, tensorIdxsFrom s 0 args))
        ⟨[], nonTensorIdxsFrom 0 args, []⟩ with
    | none => rw [hmg] at h; cases h
    | some st =>
      simp only [hmg] at h
      by_cases hemp : st.base_args.isEmpty = true
      · rw [if_pos hemp] at h
        by_cases h2 : st.other_args.length ≠ args.length
        · rw [if_pos h2] at h
          cases h
        · rw [if_neg h2] at h
          injection h with h
          exact absurd (congrArg Prod.snd h) (by simp)
      · rw [if_neg hemp] at h
        cases hpp : postProcessMeta (st.meta ++ st.other_args.enum.map fun p =>
            (p.2, SyntheticBaseEntry.direct (st.base_args.length + p.1))) with
        | none => rw [hpp] at h; cases h
        | some mm =>
          rw [hpp] at h
          injection h with h
          have hl : l = st.base_args ++ st.other_args.map MergedArg.orig :=
            (congrArg Prod.fst h).symm
          obtain ⟨bases, hb, hf, ho⟩ := mergeGroups_spec args info is_inference
            ((newStoragesFrom [] args).map fun s => (s, tensorIdxsFrom s 0 args))
            ⟨[], nonTensorIdxsFrom 0 args, []⟩ st hmg
          simp only [List.nil_append] at hb
          have hpred : ∀ s ∈ newStoragesFrom [] args,
              ((fun g => !(decide (1 < g.2.length)
                  && g.2.any fun i => (info.getD i default).mutates_data))
                ∘ fun s => (s, tensorIdxsFrom s 0 args)) s
              = !groupNeedsBase args info s := fun s _ => rfl
          have hpred2 : ∀ s ∈ newStoragesFrom [] args,
              ((fun g => decide (1 < g.2.length)
                  && g.2.any fun i => (info.getD i default).mutates_data)
                ∘ fun s => (s, tensorIdxsFrom s 0 args)) s
              = groupNeedsBase args info s := fun s _ => rfl
          refine ⟨bases, ?_, ?_, ?_⟩
          · intro hbad
            rw [hbad] at hb
            rw [hb] at hemp
            exact hemp rfl
          · rw [hl, hb, ho]
            simp only [List.filter_map, List.flatMap_map]
            rw [List.filter_congr hpred]
            rfl
          · simp only [List.filter_map, List.forall₂_map_left_iff] at hf
            rw [List.filter_congr hpred2] at hf
            exact hf

/-- Witness for C5: a concrete inference-mode call merging one pair of
storage-sharing mutated arguments, to which the amended ordering theorem
applies. -/
theorem C5_merge_ordering_witness :
    merge_view_inputs
        [⟨true, 10, 1, 0, none⟩, ⟨true, 11, 1, 0, none⟩, ⟨true, 12, 2, 0, none⟩,
         ⟨true, 13, 3, 0, none⟩, ⟨true, 14, 2, 0, none⟩]
        [⟨false, true, false⟩, ⟨false, false, false⟩, ⟨false, false, false⟩,
         ⟨false, false, false⟩, ⟨false, false, false⟩] true
      = some ([MergedArg.fresh 1, MergedArg.orig 2, MergedArg.orig 4,
            MergedArg.orig 3],
          some [SyntheticBaseEntry.viewOf 0 0, SyntheticBaseEntry.viewOf 0 1,
            SyntheticBaseEntry.direct 1, SyntheticBaseEntry.direct 3,
            SyntheticBaseEntry.direct 2])
      ∧ ∃ bases : List MergedArg,
        bases ≠ []
        ∧ [MergedArg.fresh 1, MergedArg.orig 2, MergedArg.orig 4,
            MergedArg.orig 3]
          = bases ++ (amendedC5Others
              [⟨true, 10, 1, 0, none⟩, ⟨true, 11, 1, 0, none⟩,
               ⟨true, 12, 2, 0, none⟩, ⟨true, 13, 3, 0, none⟩,
               ⟨true, 14, 2, 0, none⟩]
              [⟨false, true, false⟩, ⟨false, false, false⟩,
               ⟨false, false, false⟩, ⟨false, false, false⟩,
               ⟨false, false, false⟩]).map MergedArg.orig
        ∧ List.Forall₂ (fun s b =>
            chooseSyntheticBase
              [⟨true, 10, 1, 0, none⟩, ⟨true, 11, 1, 0, none⟩,
               ⟨true, 12, 2, 0, none⟩, ⟨true, 13, 3, 0, none⟩,
               ⟨true, 14, 2, 0, none⟩]
              (tensorIdxsFrom s 0
                [⟨true, 10, 1, 0, none⟩, ⟨true, 11, 1, 0, none⟩,
                 ⟨true, 12, 2, 0, none⟩, ⟨true, 13, 3, 0, none⟩,
                 ⟨true, 14, 2, 0, none⟩]) = some b)
          (basedStorages
            [⟨true, 10, 1, 0, none⟩, ⟨true, 11, 1, 0, none⟩,
             ⟨true, 12, 2, 0, none⟩, ⟨true, 13, 3, 0, none⟩,
             ⟨true, 14, 2, 0, none⟩]
            [⟨false, true, false⟩, ⟨false, false, false⟩,
             ⟨false, false, false⟩, ⟨false, false, false⟩,
             ⟨false, false, false⟩]) bases :=
  ⟨by decide,
    C5_merge_ordering
      [⟨true, 10, 1, 0, none⟩, ⟨true, 11, 1, 0, none⟩, ⟨true, 12, 2, 0, none⟩,
       ⟨true, 13, 3, 0, none⟩, ⟨true, 14, 2, 0, none⟩]
      [⟨false, true, false⟩, ⟨false, false, false⟩, ⟨false, false, false⟩,
       ⟨false, false, false⟩, ⟨false, false, false⟩] true
      [MergedArg.fresh 1, MergedArg.orig 2, MergedArg.orig 4, MergedArg.orig 3]
      [SyntheticBaseEntry.viewOf 0 0, SyntheticBaseEntry.viewOf 0 1,
       SyntheticBaseEntry.direct 1, SyntheticBaseEntry.direct 3,
       SyntheticBaseEntry.direct 2]
      (by decide)⟩

/-- Counterexample to C5 as stated: with arguments (storages) `[1, 1, 2, 3,
2]` where only the first is data-mutated, the merged list is `[base, arg2,
arg4, arg3]`: the non-grouped arguments `2, 3, 4` come back grouped by
storage (`2, 4, 3`), not in their original relative order (`2, 3, 4`). -/
theorem C5_counterexample :
    (merge_view_inputs
        [⟨true, 10, 1, 0, none⟩, ⟨true, 11, 1, 0, none⟩, ⟨true, 12, 2, 0, none⟩,
         ⟨true, 13, 3, 0, none⟩, ⟨true, 14, 2, 0, none⟩]
        [⟨false, true, false⟩, ⟨false, false, false⟩, ⟨false, false, false⟩,
         ⟨false, false, false⟩, ⟨false, false, false⟩] true).map (·.1)
      = some [MergedArg.fresh 1, MergedArg.orig 2, MergedArg.orig 4,
          MergedArg.orig 3]
      ∧ claimC5OrigOthers
          [⟨true, 10, 1, 0, none⟩, ⟨true, 11, 1, 0, none⟩, ⟨true, 12, 2, 0, none⟩,
           ⟨true, 13, 3, 0, none⟩, ⟨true, 14, 2, 0, none⟩]
          [⟨false, true, false⟩, ⟨false, false, false⟩, ⟨false, false, false⟩,
           ⟨false, false, false⟩, ⟨false, false, false⟩] = [2, 3, 4]
      ∧ ∀ bases : List MergedArg,
          [MergedArg.fresh 1, MergedArg.orig 2, MergedArg.orig 4,
              MergedArg.orig 3]
            ≠ bases ++ [MergedArg.orig 2, MergedArg.orig 3, MergedArg.orig 4] := by
  refine ⟨by decide, by decide, ?_⟩
  intro bases hbad
  have hlenb : bases.length = 1 := by
    have hlen := congrArg List.length hbad
    simp at hlen
    omega
  obtain ⟨b, rfl⟩ : ∃ b, bases = [b] := by
    match bases, hlenb with
    | [b], _ => exact ⟨b, rfl⟩
  simp at hbad

/-- C3 (amended): `traced_tangents` is exactly the concatenation of the
data-mutated inputs (regardless of gradient tracking), the tensor-typed
outputs classified non-aliasing or unsafe-view-aliasing, and the
intermediate bases.  (As stated, the claim additionally requires the
mutated inputs to be gradient-tracked, which the code does not check; see
the counterexample.) -/
theorem C3_traced_tangents (keep : Bool) (args : List FArg)
    (outs : List FOut) :
    (runCollectMetadata keep args outs).traced_tangents
      = amendedC3Tangents args outs := rfl

/-- Counterexample to C3 as stated: a data-mutated input with
`requires_grad = False` still enters `traced_tangents`, though the claim's
concatenation excludes it. -/
theorem C3_counterexample :
    (runCollectMetadata false [⟨true, 0, 0, true, false, .changed false true⟩]
        []).traced_tangents = [0]
      ∧ claimC3Tangents [⟨true, 0, 0, true, false, .changed false true⟩] [] = []
      ∧ (runCollectMetadata false
            [⟨true, 0, 0, true, false, .changed false true⟩] []).traced_tangents
          ≠ claimC3Tangents [⟨true, 0, 0, true, false, .changed false true⟩] [] := by
  refine ⟨by decide, by decide, by decide⟩


/-- C4: for every index in `mutated_inp_runtime_indices`, when the
runtime wrapper's per-input epilogue succeeds, a metadata-only mutation
is applied to the caller's original argument as an in-place restride to
the updated size/stride/storage-offset (after an inference-path resize
when the storage sizes differ), and a data mutation ends in an
element-wise copy — preceded by a restride exactly when metadata is also
mutated — performed through `detach()` exactly when the input is a leaf
whose original requires gradients. -/
theorem C4_runtime_mutation_application
    (m : ViewAndMutationMeta Nat) (trace_joint : Bool) (i : Nat)
    (r : RuntimeMutInput) (steps : List MutStep)
    (hi : i ∈ mutatedInpRuntimeIndices m)
    (h : applyInputMutation trace_joint (m.input_info.getD i default) r
        = some steps) :
    ((m.input_info.getD i default).mutates_metadata = true →
      (m.input_info.getD i default).mutates_data = false →
      steps = (if !trace_joint && r.orig_storage_size != r.upd_storage_size
            then [MutStep.resize r.upd_meta.size] else [])
          ++ [MutStep.restride r.upd_meta])
    ∧ ((m.input_info.getD i default).mutates_data = true →
      steps = (if !trace_joint && r.orig_storage_size != r.upd_storage_size
            then [MutStep.resize r.upd_meta.size] else [])
          ++ (if (m.input_info.getD i default).mutates_metadata
              then [MutStep.restride r.upd_meta] else [])
          ++ [if (m.input_info.getD i default).is_leaf && r.orig_requires_grad
              then MutStep.copyFromDetached r.upd_value
              else MutStep.copyFrom r.upd_value]) :=
  ⟨fun hmm hmd =>
      applyInputMutation_metadata_only trace_joint _ r steps hmm hmd h,
    fun hmd => applyInputMutation_data trace_joint _ r steps hmd h⟩

/-- Witness for C4: a single leaf input with a data mutation and
`requires_grad=True`; the epilogue applies exactly one detached copy. -/
theorem C4_runtime_mutation_application_witness :
    0 ∈ mutatedInpRuntimeIndices
        (⟨[⟨true, true, false⟩], [], [true], 0, false, []⟩ :
          ViewAndMutationMeta Nat)
    ∧ applyInputMutation false ⟨true, true, false⟩
        ⟨true, 4, 4, false, ⟨[2, 2], [2, 1], 0⟩, 99⟩
        = some [MutStep.copyFromDetached 99]
    ∧ ([MutStep.copyFromDetached 99]
        = [] ++ [] ++ [MutStep.copyFromDetached 99]) :=
  ⟨by decide, by decide,
    (C4_runtime_mutation_application
        (⟨[⟨true, true, false⟩], [], [true], 0, false, []⟩ :
          ViewAndMutationMeta Nat)
        false 0 ⟨true, 4, 4, false, ⟨[2, 2], [2, 1], 0⟩, 99⟩
        [MutStep.copyFromDetached 99] (by decide) (by decide)).2 rfl⟩

/-- C8: for well-formed fx graphs (copy nodes have mutable schemas,
placeholder nodes carry no operator target, placeholder identities are
distinct), `assert_functional_graph` succeeds exactly when every node
whose operator schema is mutable is a `copy_` whose destination is a
distinct, earlier placeholder input — and that only when input mutations
are allowed; any other mutating operator makes it raise. -/
theorem C8_functional_graph (nodes : List FxNode)
    (allow_input_mutations : Bool) (hwf : FxGraphWF nodes) :
    (assert_functional_graph nodes allow_input_mutations).isSome = true ↔
      FunctionalGraphOK allow_input_mutations nodes := by
  obtain ⟨w1, w2, w3⟩ := hwf
  exact assertFunctionalGraphGo_iff allow_input_mutations nodes [] 0 w1 w2 w3
    List.nodup_nil (fun n _ _ h => by simp at h)

/-- Witness for C8: a three-node graph — a placeholder, an allowed
`copy_` into it, and a functional op — satisfying well-formedness. -/
theorem C8_functional_graph_witness :
    FxGraphWF [⟨1, true, FxTarget.notOp, []⟩,
        ⟨2, false, FxTarget.op true true, [1, 7]⟩,
        ⟨3, false, FxTarget.op false false, [2]⟩]
    ∧ ((assert_functional_graph [⟨1, true, FxTarget.notOp, []⟩,
          ⟨2, false, FxTarget.op true true, [1, 7]⟩,
          ⟨3, false, FxTarget.op false false, [2]⟩] true).isSome = true ↔
        FunctionalGraphOK true [⟨1, true, FxTarget.notOp, []⟩,
          ⟨2, false, FxTarget.op true true, [1, 7]⟩,
          ⟨3, false, FxTarget.op false false, [2]⟩]) :=
  ⟨by decide, C8_functional_graph _ true (by decide)⟩

/-- C9: with grad mode enabled and a gradient-requiring tensor among the
backward's arguments, `CompiledFunction.backward` routes the compiled
backward through the inner `CompiledFunctionBackward` autograd node, and
that node's own backward step raises the descriptive double-backward
`RuntimeError` unconditionally. -/
theorem C9_double_backward (grad_enabled : Bool) (all_args : List BArg)
    (grads : List Nat)
    (h1 : grad_enabled = true)
    (h2 : (all_args.any fun t => t.is_tensor && t.requires_grad) = true) :
    backwardRoute grad_enabled all_args = BackwardRoute.throughInnerNode
    ∧ compiledFunctionBackwardBackward grads
        = Except.error doubleBackwardMsg := by
  subst h1
  exact ⟨by simp [backwardRoute, h2], rfl⟩

/-- Witness for C9: grad mode on and one gradient-requiring tensor. -/
theorem C9_double_backward_witness :
    (true : Bool) = true
    ∧ (([⟨true, true⟩] : List BArg).any
        fun t => t.is_tensor && t.requires_grad) = true
    ∧ (backwardRoute true [⟨true, true⟩] = BackwardRoute.throughInnerNode
      ∧ compiledFunctionBackwardBackward [0]
          = Except.error doubleBackwardMsg) :=
  ⟨rfl, by decide, C9_double_backward true [⟨true, true⟩] [0] rfl (by decide)⟩

/-- C10: `ViewAndMutationMeta.__eq__` is insensitive to traced-tangent
values — with equal input_info, output_info, requires_grad_info,
num_intermediate_bases and keep_input_mutations, equal tangent count and
pairwise equal tangent shapes and dtypes, it returns true whatever the
tangent values are. -/
theorem C10_meta_eq_ignores_tangent_values
    (a b : ViewAndMutationMeta TracedTangent)
    (h1 : a.input_info = b.input_info)
    (h2 : a.output_info = b.output_info)
    (h3 : a.requires_grad_info = b.requires_grad_info)
    (h4 : a.num_intermediate_bases = b.num_intermediate_bases)
    (h5 : a.keep_input_mutations = b.keep_input_mutations)
    (h6 : a.traced_tangents.length = b.traced_tangents.length)
    (h7 : ∀ p ∈ a.traced_tangents.zip b.traced_tangents,
        p.1.shape = p.2.shape ∧ p.1.dtype = p.2.dtype) :
    viewAndMutationMetaEq a b = true := by
  unfold viewAndMutationMetaEq
  rw [h1, h2, h3, h4, h5, h6]
  simp only [decide_eq_true_eq, Bool.and_eq_true, List.all_eq_true,
    eq_self_iff_true, and_true, true_and]
  intro p hp
  rcases h7 p hp with ⟨hs, hd⟩
  simp [hs, hd]

/-- Witness for C10: two metadata records whose single traced tangents
share shape and dtype but differ in value; `__eq__` still returns true. -/
theorem C10_meta_eq_ignores_tangent_values_witness :
    (([⟨[2, 3], 5, 7⟩] : List TracedTangent) ≠ [⟨[2, 3], 5, -4⟩])
    ∧ viewAndMutationMetaEq
        ⟨[⟨false, true, false⟩], [⟨OutputType.non_alias, true, none⟩],
          [true], 0, false, [⟨[2, 3], 5, 7⟩]⟩
        ⟨[⟨false, true, false⟩], [⟨OutputType.non_alias, true, none⟩],
          [true], 0, false, [⟨[2, 3], 5, -4⟩]⟩
      = true :=
  ⟨by decide,
    C10_meta_eq_ignores_tangent_values _ _ rfl rfl rfl rfl rfl rfl (by decide)⟩

end AotSpec
